import Mathlib

set_option maxRecDepth 8000

/- Verification of the dyn_mem fixed-pool allocator (src/mem/dyn_mem.c).

   The arena work_mem is modelled as a byte memory Mem : Nat → Nat indexed by
   offsets from the start of work_mem; the configuration constant DM_MEM_SIZE
   (defined in misc_conf.h, which is not part of src/) appears as an explicit
   parameter SZ.  The 4-byte header union dm_header_t (used:1 bit, d_size:31
   bits) is stored little-endian at the block position, bit 0 of the first
   byte being the used flag.  The configuration flag DM_AUTO_ZERO is taken as
   0 (the memset in dm_alloc is compiled out).  The static variable zero_mem
   lives at some address outside the arena; it is modelled at offset SZ, the
   first offset past the arena.  All uint32_t arithmetic carries an explicit
   % 4294967296 (2^32) wherever the C computation can wrap; the 31-bit
   d_size bitfield assignment carries % 2147483648 (2^31). -/

abbrev Mem := Nat → Nat

/-- Header union of dyn_mem.c: a used flag and a 31-bit payload size in bytes. -/
structure dm_header_t where
  used : Bool
  d_size : Nat
deriving DecidableEq, Repr

/-- The 32-bit value stored at a 4-byte header location, read little-endian.
Reads clamp each cell to a byte, as the C memory only ever holds bytes. -/
def hdrVal (m : Mem) (pos : Nat) : Nat :=
  m pos % 256 + 256 * (m (pos + 1) % 256) + 65536 * (m (pos + 2) % 256) +
    16777216 * (m (pos + 3) % 256)

/-- Decode the header at pos: bit 0 is the used flag, bits 1..31 are d_size. -/
def hdrGet (m : Mem) (pos : Nat) : dm_header_t :=
  ⟨hdrVal m pos % 2 == 1, hdrVal m pos / 2⟩

/-- Encode a header as its 32-bit union value; the d_size bitfield holds 31 bits. -/
def hdrEnc (h : dm_header_t) : Nat :=
  (if h.used then 1 else 0) + 2 * (h.d_size % 2147483648)

/-- Store a header at pos, writing its four little-endian bytes. -/
def hdrSet (m : Mem) (pos : Nat) (h : dm_header_t) : Mem := fun a =>
  if a = pos then hdrEnc h % 256
  else if a = pos + 1 then hdrEnc h / 256 % 256
  else if a = pos + 2 then hdrEnc h / 65536 % 256
  else if a = pos + 3 then hdrEnc h / 16777216 % 256
  else m a

/-- Shorthand for the decoded d_size of the header at pos. -/
def dsz (m : Mem) (pos : Nat) : Nat := (hdrGet m pos).d_size

theorem hdrVal_lt (m : Mem) (pos : Nat) : hdrVal m pos < 4294967296 := by
  unfold hdrVal; omega

theorem dsz_lt (m : Mem) (pos : Nat) : dsz m pos < 2147483648 := by
  have := hdrVal_lt m pos
  unfold dsz hdrGet; simp only; omega

theorem hdrEnc_lt (h : dm_header_t) : hdrEnc h < 4294967296 := by
  unfold hdrEnc
  have : h.d_size % 2147483648 < 2147483648 := Nat.mod_lt _ (by norm_num)
  cases h.used <;> simp <;> omega

theorem hdrSet_frame (m : Mem) (h : dm_header_t) {pos a : Nat}
    (ha : a < pos ∨ pos + 4 ≤ a) : hdrSet m pos h a = m a := by
  unfold hdrSet
  rw [if_neg (by omega), if_neg (by omega), if_neg (by omega), if_neg (by omega)]

theorem hdrVal_hdrSet (m : Mem) (pos : Nat) (h : dm_header_t) :
    hdrVal (hdrSet m pos h) pos = hdrEnc h := by
  have hlt := hdrEnc_lt h
  unfold hdrVal hdrSet
  rw [if_pos rfl]
  rw [if_neg (by omega), if_pos rfl]
  rw [if_neg (by omega), if_neg (by omega), if_pos rfl]
  rw [if_neg (by omega), if_neg (by omega), if_neg (by omega), if_pos rfl]
  omega

theorem hdrGet_hdrSet (m : Mem) (pos : Nat) (h : dm_header_t) :
    hdrGet (hdrSet m pos h) pos = ⟨h.used, h.d_size % 2147483648⟩ := by
  unfold hdrGet
  rw [hdrVal_hdrSet]
  unfold hdrEnc
  cases h.used <;> simp <;> omega

theorem hdrGet_hdrSet_of_lt (m : Mem) (pos : Nat) (h : dm_header_t)
    (hd : h.d_size < 2147483648) : hdrGet (hdrSet m pos h) pos = h := by
  rw [hdrGet_hdrSet, Nat.mod_eq_of_lt hd]

theorem hdrVal_congr {m1 m2 : Mem} {pos : Nat}
    (h : ∀ i, i < 4 → m1 (pos + i) = m2 (pos + i)) : hdrVal m1 pos = hdrVal m2 pos := by
  unfold hdrVal
  have h0 := h 0 (by omega)
  have h1 := h 1 (by omega)
  have h2 := h 2 (by omega)
  have h3 := h 3 (by omega)
  simp only [Nat.add_zero] at h0
  rw [h0, h1, h2, h3]

theorem hdrGet_congr {m1 m2 : Mem} {pos : Nat}
    (h : ∀ i, i < 4 → m1 (pos + i) = m2 (pos + i)) : hdrGet m1 pos = hdrGet m2 pos := by
  unfold hdrGet; rw [hdrVal_congr h]

theorem dsz_congr {m1 m2 : Mem} {pos : Nat}
    (h : ∀ i, i < 4 → m1 (pos + i) = m2 (pos + i)) : dsz m1 pos = dsz m2 pos := by
  unfold dsz; rw [hdrGet_congr h]

theorem hdrGet_hdrSet_ne (m : Mem) (h : dm_header_t) {pos q : Nat}
    (hq : q + 4 ≤ pos ∨ pos + 4 ≤ q) : hdrGet (hdrSet m pos h) q = hdrGet m q := by
  apply hdrGet_congr
  intro i hi
  exact hdrSet_frame m h (by omega)

theorem hdrGet_zeros {m : Mem} {pos : Nat}
    (h : ∀ i, i < 4 → m (pos + i) = 0) : hdrGet m pos = ⟨false, 0⟩ := by
  have hv : hdrVal m pos = 0 := by
    unfold hdrVal
    have h0 := h 0 (by omega)
    have h1 := h 1 (by omega)
    have h2 := h 2 (by omega)
    have h3 := h 3 (by omega)
    simp only [Nat.add_zero] at h0
    rw [h0, h1, h2, h3]
  unfold hdrGet
  rw [hv]
  rfl

/-- Setting the used flag to false (as dm_free does) while a header region is
all zero writes the same zeros back. -/
theorem hdrSet_false_zeros {m : Mem} {pos : Nat}
    (h : ∀ i, i < 4 → m (pos + i) = 0) :
    hdrSet m pos ⟨false, dsz m pos⟩ = m := by
  have hg : hdrGet m pos = ⟨false, 0⟩ := hdrGet_zeros h
  have hd : dsz m pos = 0 := by unfold dsz; rw [hg]
  funext a
  unfold hdrSet
  rw [hd]
  have henc : hdrEnc ⟨false, 0⟩ = 0 := by unfold hdrEnc; simp
  by_cases h0 : a = pos
  · subst h0; rw [if_pos rfl, henc]
    have := h 0 (by omega); simpa using this.symm
  · rw [if_neg h0]
    by_cases h1 : a = pos + 1
    · subst h1; rw [if_pos rfl, henc]
      have := h 1 (by omega); simpa using this.symm
    · rw [if_neg h1]
      by_cases h2 : a = pos + 2
      · subst h2; rw [if_pos rfl, henc]
        have := h 2 (by omega); simpa using this.symm
      · rw [if_neg h2]
        by_cases h3 : a = pos + 3
        · subst h3; rw [if_pos rfl, henc]
          have := h 3 (by omega); simpa using this.symm
        · rw [if_neg h3]

/- ### The allocator state and operations, translated from src/mem/dyn_mem.c -/

/-- The zero-initialized static work_mem array before dm_init runs. -/
def work_mem0 : Mem := fun _ => 0

/-- Address of the static variable zero_mem ("give the address of this variable
if 0 byte should be allocated").  It lies outside the arena; it is modelled at
offset SZ, the first offset past the arena. -/
def zero_mem (SZ : Nat) : Nat := SZ

theorem zero_mem_def (SZ : Nat) : zero_mem SZ = SZ := rfl

/-- dm_init: one free block spanning the arena minus the first header.
The d_size assignment is uint32 arithmetic truncated to the 31-bit field. -/
def dm_init (SZ : Nat) (m : Mem) : Mem :=
  hdrSet m 0 ⟨false, (4294967296 + SZ - 4) % 4294967296⟩

/-- ent_get_next: NULL means get the first entry (work_mem, offset 0);
otherwise step over the current header and payload, returning NULL once the
next entry's first_data would reach past the arena end. -/
def ent_get_next (SZ : Nat) (m : Mem) (act_e : Option Nat) : Option Nat :=
  match act_e with
  | none => some 0
  | some pos =>
    let next_e := pos + 4 + dsz m pos
    if SZ ≤ next_e + 4 then none else some next_e

theorem ent_get_next_some {SZ : Nat} {m : Mem} {pos nxt : Nat}
    (h : ent_get_next SZ m (some pos) = some nxt) :
    nxt = pos + 4 + dsz m pos ∧ nxt + 4 < SZ := by
  simp only [ent_get_next] at h
  split at h
  next => simp at h
  next hc =>
    injection h with h1
    omega

/-- The list of block positions visited by repeated ent_get_next calls,
starting at the block at pos (the first call on NULL yields position 0). -/
def chainFrom (SZ : Nat) (m : Mem) (pos : Nat) : List Nat :=
  pos ::
    (match h : ent_get_next SZ m (some pos) with
     | some nxt => chainFrom SZ m nxt
     | none => [])
termination_by SZ - pos
decreasing_by
  have := ent_get_next_some h
  omega

/-- The block chain of the whole arena, in address order. -/
def chain (SZ : Nat) (m : Mem) : List Nat := chainFrom SZ m 0

/-- ent_trunc: truncate the entry at pos to the given size.  If the entry is
exactly a header larger than the request, fold the leftover into the entry;
otherwise if any leftover remains, plant a new free header after the truncated
payload.  All size arithmetic is uint32, and the d_size stores truncate to the
31-bit field (inside hdrSet). -/
def ent_trunc (m : Mem) (pos size0 : Nat) : Mem :=
  let d := dsz m pos
  let size := if d = (size0 + 4) % 4294967296 then (size0 + 4) % 4294967296 else size0
  let m1 :=
    if d ≠ size then
      hdrSet m (pos + 4 + size) ⟨false, (4294967296 + d - (size + 4) % 4294967296) % 4294967296⟩
    else m
  hdrSet m1 pos ⟨(hdrGet m1 pos).used, size⟩

/-- The successful branch of ent_alloc: truncate the entry to the requested
size, then set its used bit. -/
def allocAt (m : Mem) (pos size : Nat) : Mem :=
  let m1 := ent_trunc m pos size
  hdrSet m1 pos ⟨true, dsz m1 pos⟩

/-- ent_alloc: if the entry at pos is free and large enough, truncate it, mark
it used and return its payload address, else fail without touching memory. -/
def ent_alloc (m : Mem) (pos size : Nat) : Option Nat × Mem :=
  if (hdrGet m pos).used = false ∧ size ≤ dsz m pos then
    (some (pos + 4), allocAt m pos size)
  else (none, m)

/-- The do-while search loop of dm_alloc, entered at the block at pos: try
ent_alloc on the current entry and move to ent_get_next while both the next
entry exists and the allocation has not succeeded. -/
def dm_alloc_scan (SZ size : Nat) (m : Mem) (pos : Nat) : Option Nat × Mem :=
  match ent_alloc m pos size with
  | (some p, m2) => (some p, m2)
  | (none, m2) =>
    match h : ent_get_next SZ m2 (some pos) with
    | some nxt => dm_alloc_scan SZ size m2 nxt
    | none => (none, m2)
termination_by SZ - pos
decreasing_by
  have := ent_get_next_some h
  omega

/-- The rounding step of dm_alloc: round size up to the next multiple of 4
in uint32 arithmetic (size &= ~3; size += 4 can wrap for size above 2^32-4). -/
def round4 (size : Nat) : Nat :=
  if size % 4 ≠ 0 then (size - size % 4 + 4) % 4294967296 else size

/-- The mathematical round-up of s to the next multiple of 4, as the spec
words it ("round size up to the next multiple of 4"). -/
def round4_spec (s : Nat) : Nat := 4 * ((s + 3) / 4)

/-- dm_alloc: a zero request returns the address of zero_mem untouched;
otherwise round the size up to a multiple of 4 and run the first-fit scan
from the start of the arena (DM_AUTO_ZERO is 0, so no memset). -/
def dm_alloc (SZ : Nat) (m : Mem) (size : Nat) : Option Nat × Mem :=
  if size = 0 then (some (zero_mem SZ), m)
  else dm_alloc_scan SZ (round4 size) m 0

/-- dm_free: a no-op on the zero_mem sentinel and on NULL; otherwise clear the
used flag of the header sizeof(dm_header_t) bytes before the payload. -/
def dm_free (SZ : Nat) (m : Mem) (data_dp : Option Nat) : Mem :=
  match data_dp with
  | none => m
  | some dp =>
    if dp = zero_mem SZ then m
    else hdrSet m (dp - 4) ⟨false, dsz m (dp - 4)⟩

/-- dm_get_size: 0 for the zero_mem sentinel, else the d_size of the header
just before the payload. -/
def dm_get_size (SZ : Nat) (m : Mem) (data_dp : Nat) : Nat :=
  if data_dp = zero_mem SZ then 0 else dsz m (data_dp - 4)

/-- C memcpy over the byte memory: copy n bytes from src to dst (the source
region is read from the pre-call memory; the two regions never overlap in the
defined uses). -/
def memcpy (m : Mem) (dst src n : Nat) : Mem := fun a =>
  if dst ≤ a ∧ a < dst + n then m (src + (a - dst)) else m a

/-- dm_realloc: allocate new_size; if that succeeded and the old pointer is
not NULL and has nonzero size, copy min(new_size, old_size) bytes (min is the
usual minimum from math_base.h, which is not under src/; modelled from the
spec: "copy min(old_size, new_size) bytes from old payload to new") and free
the old pointer; always return the allocation result. -/
def dm_realloc (SZ : Nat) (m : Mem) (data_p : Option Nat) (new_size : Nat) :
    Option Nat × Mem :=
  match dm_alloc SZ m new_size with
  | (none, m1) => (none, m1)
  | (some new_p, m1) =>
    match data_p with
    | none => (some new_p, m1)
    | some dp =>
      let old_size := dm_get_size SZ m1 dp
      if old_size ≠ 0 then
        let m2 := memcpy m1 new_p dp (min new_size old_size)
        (some new_p, dm_free SZ m2 (some dp))
      else (some new_p, m1)

/-- dm_defrag: the body is empty (TODO in the source); the state is unchanged. -/
def dm_defrag (m : Mem) : Mem := m

/-- The monitor record dm_mon_t.  Its declaration lives in dyn_mem.h, which is
not under src/; modelled from the spec ("monitor() -> {free_block_count,
used_block_count, free_byte_total, largest_free_block_bytes,
fragmentation_percent}") with the field names used by dm_monitor's code and
uint32 fields. -/
structure dm_mon_t where
  cnt_free : Nat
  cnt_used : Nat
  size_free : Nat
  size_free_big : Nat
  pct_frag : Nat
deriving DecidableEq, Repr

/-- The body of dm_monitor's while loop at the block at pos: free blocks bump
cnt_free and the byte total and best size, used blocks bump cnt_used.  The
uint32 counter and byte-total increments wrap mod 2^32. -/
def monStep (m : Mem) (pos : Nat) (mon : dm_mon_t) : dm_mon_t :=
  if (hdrGet m pos).used = false then
    { mon with
      cnt_free := (mon.cnt_free + 1) % 4294967296
      size_free := (mon.size_free + dsz m pos) % 4294967296
      size_free_big :=
        if mon.size_free_big < dsz m pos then dsz m pos else mon.size_free_big }
  else { mon with cnt_used := (mon.cnt_used + 1) % 4294967296 }

/-- The while loop of dm_monitor, entered at the block at pos: accumulate the
free/used counters over the chain. -/
def dm_monitor_loop (SZ : Nat) (m : Mem) (pos : Nat) (mon : dm_mon_t) : dm_mon_t :=
  match h : ent_get_next SZ m (some pos) with
  | some nxt => dm_monitor_loop SZ m nxt (monStep m pos mon)
  | none => monStep m pos mon
termination_by SZ - pos
decreasing_by
  have := ent_get_next_some h
  omega

/-- dm_monitor: zero the record, walk every block from the first entry, then
derive the fragmentation percentage 100 - size_free_big * 100 / size_free in
uint32 arithmetic (the product wraps mod 2^32; Nat division by zero is 0 where
the C division by a zero size_free is undefined). -/
def dm_monitor (SZ : Nat) (m : Mem) : dm_mon_t :=
  let mon1 := dm_monitor_loop SZ m 0 ⟨0, 0, 0, 0, 0⟩
  let p1 := mon1.size_free_big * 100 % 4294967296 / mon1.size_free
  { mon1 with pct_frag := (4294967296 + 100 - p1) % 4294967296 }

/- ### Case analysis of ent_trunc / ent_alloc -/

theorem hdrSet_hdrSet (m : Mem) (pos : Nat) (h1 h2 : dm_header_t) :
    hdrSet (hdrSet m pos h1) pos h2 = hdrSet m pos h2 := by
  funext a
  simp only [hdrSet]
  split_ifs <;> rfl

theorem dsz_hdrSet_self (m : Mem) (pos : Nat) (h : dm_header_t) :
    dsz (hdrSet m pos h) pos = h.d_size % 2147483648 := by
  unfold dsz
  rw [hdrGet_hdrSet]

theorem dsz_hdrSet_ne (m : Mem) (h : dm_header_t) {pos q : Nat}
    (hq : q + 4 ≤ pos ∨ pos + 4 ≤ q) : dsz (hdrSet m pos h) q = dsz m q := by
  unfold dsz
  rw [hdrGet_hdrSet_ne m h hq]

/-- ent_trunc in the fold case: the block is exactly a header bigger than the
request, so the leftover is folded in and the size is unchanged. -/
theorem ent_trunc_fold {m : Mem} {pos k : Nat} (hk31 : k < 2147483648)
    (hd : dsz m pos = k + 4) :
    ent_trunc m pos k = hdrSet m pos ⟨(hdrGet m pos).used, k + 4⟩ := by
  have hmod : (k + 4) % 4294967296 = k + 4 := Nat.mod_eq_of_lt (by omega)
  simp only [ent_trunc, hmod]
  have hsize : (if dsz m pos = k + 4 then k + 4 else k) = k + 4 := if_pos hd
  rw [hsize]
  rw [if_neg (by omega)]

/-- ent_trunc in the exact-fit case: the size is written back unchanged. -/
theorem ent_trunc_exact {m : Mem} {pos k : Nat} (hk31 : k < 2147483648)
    (hd : dsz m pos = k) :
    ent_trunc m pos k = hdrSet m pos ⟨(hdrGet m pos).used, k⟩ := by
  have hmod : (k + 4) % 4294967296 = k + 4 := Nat.mod_eq_of_lt (by omega)
  simp only [ent_trunc, hmod]
  have hsize : (if dsz m pos = k + 4 then k + 4 else k) = k := if_neg (by omega)
  rw [hsize]
  rw [if_neg (by omega)]

/-- ent_trunc in the split case: a new free header is planted after the
truncated payload, then the size is set to the request. -/
theorem ent_trunc_split {m : Mem} {pos k : Nat} (hk31 : k < 2147483648)
    (hne1 : dsz m pos ≠ k) (hne2 : dsz m pos ≠ k + 4) :
    ent_trunc m pos k =
      hdrSet (hdrSet m (pos + 4 + k)
          ⟨false, (4294967296 + dsz m pos - (k + 4)) % 4294967296⟩) pos
        ⟨(hdrGet m pos).used, k⟩ := by
  have hmod : (k + 4) % 4294967296 = k + 4 := Nat.mod_eq_of_lt (by omega)
  simp only [ent_trunc, hmod]
  have hsize : (if dsz m pos = k + 4 then k + 4 else k) = k := if_neg (by omega)
  rw [hsize]
  rw [if_pos (by omega)]
  rw [hmod]
  have hget : hdrGet (hdrSet m (pos + 4 + k)
      ⟨false, (4294967296 + dsz m pos - (k + 4)) % 4294967296⟩) pos = hdrGet m pos :=
    hdrGet_hdrSet_ne _ _ (by omega)
  rw [hget]

/-- allocAt in the fold case. -/
theorem allocAt_fold {m : Mem} {pos k : Nat} (hk31 : k < 2147483648)
    (hd : dsz m pos = k + 4) : allocAt m pos k = hdrSet m pos ⟨true, k + 4⟩ := by
  have hd31 := dsz_lt m pos
  simp only [allocAt]
  rw [ent_trunc_fold hk31 hd, dsz_hdrSet_self, hdrSet_hdrSet]
  have h1 : (dm_header_t.mk (hdrGet m pos).used (k + 4)).d_size % 2147483648 = k + 4 :=
    Nat.mod_eq_of_lt (show k + 4 < 2147483648 by omega)
  rw [h1]

/-- allocAt in the exact-fit case. -/
theorem allocAt_exact {m : Mem} {pos k : Nat} (hk31 : k < 2147483648)
    (hd : dsz m pos = k) : allocAt m pos k = hdrSet m pos ⟨true, k⟩ := by
  simp only [allocAt]
  rw [ent_trunc_exact hk31 hd, dsz_hdrSet_self, hdrSet_hdrSet]
  have h1 : (dm_header_t.mk (hdrGet m pos).used k).d_size % 2147483648 = k :=
    Nat.mod_eq_of_lt (show k < 2147483648 by omega)
  rw [h1]

/-- allocAt in the split case. -/
theorem allocAt_split {m : Mem} {pos k : Nat} (hk31 : k < 2147483648)
    (hne1 : dsz m pos ≠ k) (hne2 : dsz m pos ≠ k + 4) :
    allocAt m pos k =
      hdrSet (hdrSet m (pos + 4 + k)
          ⟨false, (4294967296 + dsz m pos - (k + 4)) % 4294967296⟩) pos ⟨true, k⟩ := by
  simp only [allocAt]
  rw [ent_trunc_split hk31 hne1 hne2, dsz_hdrSet_self, hdrSet_hdrSet]
  have h1 : (dm_header_t.mk (hdrGet m pos).used k).d_size % 2147483648 = k :=
    Nat.mod_eq_of_lt (show k < 2147483648 by omega)
  rw [h1]

theorem ent_alloc_success {m : Mem} {pos k : Nat}
    (hfree : (hdrGet m pos).used = false) (hk : k ≤ dsz m pos) :
    ent_alloc m pos k = (some (pos + 4), allocAt m pos k) := by
  unfold ent_alloc
  rw [if_pos ⟨hfree, hk⟩]

theorem ent_alloc_fail {m : Mem} {pos k : Nat}
    (h : ¬((hdrGet m pos).used = false ∧ k ≤ dsz m pos)) :
    ent_alloc m pos k = (none, m) := by
  unfold ent_alloc
  rw [if_neg h]

/-- The header of the block taken by allocAt: used, with size k, or k + 4 in
the fold case. -/
theorem allocAt_hdr {m : Mem} {pos k : Nat} (hk : k ≤ dsz m pos) :
    hdrGet (allocAt m pos k) pos =
      ⟨true, if dsz m pos = k + 4 then k + 4 else k⟩ := by
  have hd31 := dsz_lt m pos
  have hk31 : k < 2147483648 := by omega
  by_cases h1 : dsz m pos = k + 4
  · rw [allocAt_fold hk31 h1, if_pos h1]
    exact hdrGet_hdrSet_of_lt _ _ _ (show k + 4 < 2147483648 by omega)
  · rw [if_neg h1]
    by_cases h2 : dsz m pos = k
    · rw [allocAt_exact hk31 h2]
      exact hdrGet_hdrSet_of_lt _ _ _ (show k < 2147483648 by omega)
    · rw [allocAt_split hk31 h2 h1]
      exact hdrGet_hdrSet_of_lt _ _ _ (show k < 2147483648 by omega)

/-- The new free header planted by a split of an aligned block. -/
theorem allocAt_newhdr {m : Mem} {pos k : Nat} (hk : k ≤ dsz m pos)
    (h4k : k % 4 = 0) (h4d : dsz m pos % 4 = 0)
    (hne1 : dsz m pos ≠ k) (hne2 : dsz m pos ≠ k + 4) :
    hdrGet (allocAt m pos k) (pos + 4 + k) = ⟨false, dsz m pos - k - 4⟩ := by
  have hd31 := dsz_lt m pos
  have hk31 : k < 2147483648 := by omega
  have hd8 : k + 8 ≤ dsz m pos := by omega
  rw [allocAt_split hk31 hne1 hne2]
  rw [hdrGet_hdrSet_ne _ _ (by omega)]
  have hv : (4294967296 + dsz m pos - (k + 4)) % 4294967296 = dsz m pos - k - 4 := by
    omega
  rw [hv]
  exact hdrGet_hdrSet_of_lt _ _ _ (show dsz m pos - k - 4 < 2147483648 by omega)

/-- allocAt only writes inside the span of the (aligned) block it takes. -/
theorem allocAt_frame {m : Mem} {pos k : Nat} (hk : k ≤ dsz m pos)
    (h4k : k % 4 = 0) (h4d : dsz m pos % 4 = 0) {a : Nat}
    (ha : a < pos ∨ pos + 4 + dsz m pos ≤ a) : allocAt m pos k a = m a := by
  have hd31 := dsz_lt m pos
  have hk31 : k < 2147483648 := by omega
  by_cases h1 : dsz m pos = k + 4
  · rw [allocAt_fold hk31 h1]
    exact hdrSet_frame _ _ (by omega)
  · by_cases h2 : dsz m pos = k
    · rw [allocAt_exact hk31 h2]
      exact hdrSet_frame _ _ (by omega)
    · have hd8 : k + 8 ≤ dsz m pos := by omega
      rw [allocAt_split hk31 h2 h1]
      rw [hdrSet_frame _ _ (by omega)]
      exact hdrSet_frame _ _ (by omega)

/-- allocAt leaves the payload bytes of the block it takes unchanged. -/
theorem allocAt_frame_payload {m : Mem} {pos k : Nat} (hk : k ≤ dsz m pos)
    {a : Nat} (ha : pos + 4 ≤ a ∧ a < pos + 4 + k) : allocAt m pos k a = m a := by
  have hd31 := dsz_lt m pos
  have hk31 : k < 2147483648 := by omega
  by_cases h1 : dsz m pos = k + 4
  · rw [allocAt_fold hk31 h1]
    exact hdrSet_frame _ _ (by omega)
  · by_cases h2 : dsz m pos = k
    · rw [allocAt_exact hk31 h2]
      exact hdrSet_frame _ _ (by omega)
    · rw [allocAt_split hk31 h2 h1]
      rw [hdrSet_frame _ _ (by omega)]
      exact hdrSet_frame _ _ (by omega)

/- ### Chain lemmas and the first-fit characterisation of the dm_alloc scan -/

theorem chainFrom_some {SZ : Nat} {m : Mem} {pos nxt : Nat}
    (h : ent_get_next SZ m (some pos) = some nxt) :
    chainFrom SZ m pos = pos :: chainFrom SZ m nxt := by
  rw [chainFrom]
  split
  next nxt2 heq => rw [h] at heq; cases heq; rfl
  next heq => rw [h] at heq; cases heq

theorem chainFrom_none {SZ : Nat} {m : Mem} {pos : Nat}
    (h : ent_get_next SZ m (some pos) = none) :
    chainFrom SZ m pos = [pos] := by
  rw [chainFrom]
  split
  next nxt2 heq => rw [h] at heq; cases heq
  next heq => rfl

theorem chainFrom_self (SZ : Nat) (m : Mem) (pos : Nat) : pos ∈ chainFrom SZ m pos := by
  cases h : ent_get_next SZ m (some pos) with
  | none => rw [chainFrom_none h]; exact List.mem_singleton_self pos
  | some nxt => rw [chainFrom_some h]; exact List.mem_cons_self pos _

theorem chainFrom_mem_cases {SZ : Nat} {m : Mem} {pos p : Nat}
    (h : p ∈ chainFrom SZ m pos) :
    p = pos ∨ ∃ nxt, ent_get_next SZ m (some pos) = some nxt ∧ p ∈ chainFrom SZ m nxt := by
  cases hn : ent_get_next SZ m (some pos) with
  | none =>
    rw [chainFrom_none hn] at h
    left
    simpa using h
  | some nxt =>
    rw [chainFrom_some hn] at h
    rcases List.mem_cons.mp h with h1 | h1
    · left; exact h1
    · right; exact ⟨nxt, rfl, h1⟩

theorem chainFrom_ge {SZ : Nat} {m : Mem} {pos p : Nat}
    (h : p ∈ chainFrom SZ m pos) : pos ≤ p := by
  rcases chainFrom_mem_cases h with h1 | ⟨nxt, hn, h1⟩
  · omega
  · have h2 := ent_get_next_some hn
    have h3 := chainFrom_ge h1
    omega
termination_by SZ - pos
decreasing_by have := ent_get_next_some hn; omega

theorem chainFrom_tail_ge {SZ : Nat} {m : Mem} {pos p : Nat}
    (h : p ∈ chainFrom SZ m pos) (hne : p ≠ pos) : pos + 4 + dsz m pos ≤ p := by
  rcases chainFrom_mem_cases h with h1 | ⟨nxt, hn, h1⟩
  · exact absurd h1 hne
  · have h2 := ent_get_next_some hn
    have h3 := chainFrom_ge h1
    omega

/-- A chain position past the head has its payload start strictly inside the
arena. -/
theorem chainFrom_tail_lt {SZ : Nat} {m : Mem} {pos p : Nat}
    (h : p ∈ chainFrom SZ m pos) (hne : p ≠ pos) : p + 4 < SZ := by
  rcases chainFrom_mem_cases h with h1 | ⟨nxt, hn, h1⟩
  · exact absurd h1 hne
  · have h2 := ent_get_next_some hn
    by_cases hp : p = nxt
    · subst hp; omega
    · exact chainFrom_tail_lt h1 hp
termination_by SZ - pos
decreasing_by have := ent_get_next_some hn; omega

/-- Distinct blocks of one chain have disjoint header+payload spans. -/
theorem chainFrom_disjoint {SZ : Nat} {m : Mem} {pos p1 p2 : Nat}
    (h1 : p1 ∈ chainFrom SZ m pos) (h2 : p2 ∈ chainFrom SZ m pos) (hne : p1 ≠ p2) :
    p1 + 4 + dsz m p1 ≤ p2 ∨ p2 + 4 + dsz m p2 ≤ p1 := by
  by_cases e1 : p1 = pos
  · subst e1
    left
    exact chainFrom_tail_ge h2 (fun h => hne h.symm)
  · by_cases e2 : p2 = pos
    · subst e2
      right
      exact chainFrom_tail_ge h1 e1
    · rcases chainFrom_mem_cases h1 with g1 | ⟨nxt, hn, g1⟩
      · exact absurd g1 e1
      · rcases chainFrom_mem_cases h2 with g2 | ⟨nxt2, hn2, g2⟩
        · exact absurd g2 e2
        · rw [hn] at hn2
          cases hn2
          exact chainFrom_disjoint g1 g2 hne
termination_by SZ - pos
decreasing_by have := ent_get_next_some hn; omega

/-- The first-fit predicate of ent_alloc: free and large enough. -/
def fits (m : Mem) (k pos : Nat) : Bool :=
  !(hdrGet m pos).used && decide (k ≤ dsz m pos)

/-- The first block of the chain, in address order, that is free and can hold
k bytes. -/
def firstFit (SZ : Nat) (m : Mem) (k : Nat) : Option Nat :=
  (chain SZ m).find? (fits m k)

theorem fits_iff {m : Mem} {k pos : Nat} :
    fits m k pos = true ↔ (hdrGet m pos).used = false ∧ k ≤ dsz m pos := by
  simp [fits]

theorem dm_alloc_scan_hit {SZ k : Nat} {m : Mem} {pos : Nat}
    (hfree : (hdrGet m pos).used = false) (hk : k ≤ dsz m pos) :
    dm_alloc_scan SZ k m pos = (some (pos + 4), allocAt m pos k) := by
  rw [dm_alloc_scan, ent_alloc_success hfree hk]

theorem dm_alloc_scan_miss_none {SZ k : Nat} {m : Mem} {pos : Nat}
    (hc : ¬((hdrGet m pos).used = false ∧ k ≤ dsz m pos))
    (h : ent_get_next SZ m (some pos) = none) :
    dm_alloc_scan SZ k m pos = (none, m) := by
  rw [dm_alloc_scan, ent_alloc_fail hc]
  split
  next p m2 heq => simp at heq
  next m2 heq =>
    injection heq with h1 h2
    subst h2
    split
    next nxt2 heq2 => rw [h] at heq2; cases heq2
    next heq2 => rfl

theorem dm_alloc_scan_miss_some {SZ k : Nat} {m : Mem} {pos nxt : Nat}
    (hc : ¬((hdrGet m pos).used = false ∧ k ≤ dsz m pos))
    (h : ent_get_next SZ m (some pos) = some nxt) :
    dm_alloc_scan SZ k m pos = dm_alloc_scan SZ k m nxt := by
  rw [dm_alloc_scan, ent_alloc_fail hc]
  split
  next p m2 heq => simp at heq
  next m2 heq =>
    injection heq with h1 h2
    subst h2
    split
    next nxt2 heq2 => rw [h] at heq2; cases heq2; rfl
    next heq2 => rw [h] at heq2; cases heq2

/-- The dm_alloc search loop is a first-fit scan: it returns the payload
address of the first free, large-enough block of the chain after allocAt-ing
it, and fails with memory untouched when no chain block fits. -/
theorem scan_spec (SZ k : Nat) (m : Mem) (pos : Nat) :
    dm_alloc_scan SZ k m pos =
      (match (chainFrom SZ m pos).find? (fits m k) with
       | none => (none, m)
       | some p => (some (p + 4), allocAt m p k)) := by
  by_cases hf : fits m k pos = true
  · have hc := fits_iff.mp hf
    rw [dm_alloc_scan_hit hc.1 hc.2]
    cases hn : ent_get_next SZ m (some pos) with
    | none => rw [chainFrom_none hn]; rw [List.find?_cons_of_pos _ hf]
    | some nxt => rw [chainFrom_some hn]; rw [List.find?_cons_of_pos _ hf]
  · have hc : ¬((hdrGet m pos).used = false ∧ k ≤ dsz m pos) := by
      intro h
      exact hf (fits_iff.mpr h)
    cases hn : ent_get_next SZ m (some pos) with
    | none =>
      rw [dm_alloc_scan_miss_none hc hn, chainFrom_none hn]
      rw [List.find?_cons_of_neg _ hf]
      rfl
    | some nxt =>
      rw [dm_alloc_scan_miss_some hc hn, chainFrom_some hn]
      rw [List.find?_cons_of_neg _ hf]
      exact scan_spec SZ k m nxt
termination_by SZ - pos
decreasing_by have := ent_get_next_some hn; omega

/- ### dm_alloc characterisation -/

theorem round4_mod4 (s : Nat) : round4 s % 4 = 0 := by
  unfold round4
  split <;> omega

theorem round4_eq_spec {s : Nat} (hs : s ≤ 4294967292) : round4 s = round4_spec s := by
  unfold round4 round4_spec
  split <;> omega

theorem round4_spec_ge (s : Nat) : s ≤ round4_spec s := by
  unfold round4_spec
  omega

theorem round4_spec_mod4 (s : Nat) : round4_spec s % 4 = 0 := by
  unfold round4_spec
  omega

theorem dm_alloc_zero (SZ : Nat) (m : Mem) : dm_alloc SZ m 0 = (some (zero_mem SZ), m) := rfl

theorem dm_alloc_pos (SZ : Nat) (m : Mem) {s : Nat} (hs : s ≠ 0) :
    dm_alloc SZ m s = dm_alloc_scan SZ (round4 s) m 0 := by
  rw [dm_alloc, if_neg hs]

/-- dm_alloc on a nonzero, non-wrapping size: take the first free block of the
chain that holds the rounded size via allocAt, or fail leaving memory
untouched. -/
theorem dm_alloc_spec (SZ : Nat) (m : Mem) {s : Nat} (hs : 0 < s) (hs2 : s ≤ 4294967292) :
    dm_alloc SZ m s =
      (match firstFit SZ m (round4_spec s) with
       | none => (none, m)
       | some p => (some (p + 4), allocAt m p (round4_spec s))) := by
  rw [dm_alloc_pos SZ m (by omega), round4_eq_spec hs2]
  rw [scan_spec]
  rfl

theorem firstFit_mem {SZ : Nat} {m : Mem} {k p : Nat} (h : firstFit SZ m k = some p) :
    p ∈ chain SZ m ∧ (hdrGet m p).used = false ∧ k ≤ dsz m p := by
  have h1 := List.mem_of_find?_eq_some h
  have h2 := List.find?_some h
  exact ⟨h1, fits_iff.mp h2⟩

/- ### Claim theorems: first-fit search, splitting, exhaustion -/

/-- Claim C1 (amended: the request is at most 4294967292 = 2^32 - 4, so that
the uint32 round-up cannot wrap): for 0 < s, dm_alloc rounds s up to the next
multiple of 4 and returns the payload address of the first block in address
order that is both free and at least that large, after marking it used; if no
chain block qualifies, it returns NULL with memory untouched. -/
theorem C1_first_fit (SZ : Nat) (m : Mem) (s : Nat) (hs : 0 < s) (hs2 : s ≤ 4294967292) :
    (match firstFit SZ m (round4_spec s) with
     | none => dm_alloc SZ m s = (none, m)
     | some p => (dm_alloc SZ m s).1 = some (p + 4) ∧
         (hdrGet (dm_alloc SZ m s).2 p).used = true) := by
  rw [dm_alloc_spec SZ m hs hs2]
  cases hf : firstFit SZ m (round4_spec s) with
  | none => rfl
  | some p =>
    have hfit := (firstFit_mem hf).2.2
    refine ⟨rfl, ?_⟩
    rw [allocAt_hdr hfit]

/-- Witness for C1 on a concrete arena: a 16-byte arena holds one free
12-byte block at 0; an allocation of 5 bytes rounds to 8 and takes it. -/
theorem C1_first_fit_witness :
    (dm_alloc 16 (dm_init 16 work_mem0) 5).1 = some (0 + 4) ∧
    (hdrGet (dm_alloc 16 (dm_init 16 work_mem0) 5).2 0).used = true := by
  have h := C1_first_fit 16 (dm_init 16 work_mem0) 5 (by decide) (by decide)
  have hf : firstFit 16 (dm_init 16 work_mem0) (round4_spec 5) = some 0 := by
    have hn : ent_get_next 16 (dm_init 16 work_mem0) (some 0) = none := by decide
    rw [firstFit, chain, chainFrom_none hn]
    decide
  rw [hf] at h
  exact h

/-- Claim C1 counterexample: at s = 4294967295 the uint32 round-up wraps to 0,
so dm_alloc succeeds on a fresh 16-byte arena even though no block is as large
as the next multiple of 4 above s; the claim as stated demands NULL here. -/
theorem C1_counterexample :
    (∀ q ∈ chain 16 (dm_init 16 work_mem0),
        ¬((hdrGet (dm_init 16 work_mem0) q).used = false ∧
          round4_spec 4294967295 ≤ dsz (dm_init 16 work_mem0) q)) ∧
    (dm_alloc 16 (dm_init 16 work_mem0) 4294967295).1 = some 4 := by
  have hn : ent_get_next 16 (dm_init 16 work_mem0) (some 0) = none := by decide
  constructor
  · rw [chain, chainFrom_none hn]
    decide
  · rw [dm_alloc_pos _ _ (by decide)]
    rw [dm_alloc_scan_hit (by decide) (by decide)]

/-- Claim C2: taking a free aligned block of size m0 for an aligned request of
k bytes: if m0 > k + 4 the block is truncated to k and a new free block of
size m0 - k - 4 appears right after it; if m0 = k + 4 the header-only
remainder is folded in (size becomes m0, no new block); if m0 = k nothing is
split; bytes outside the block's span are never touched. -/
theorem C2_split_correct (m : Mem) (pos k : Nat)
    (hfree : (hdrGet m pos).used = false) (hk : k ≤ dsz m pos)
    (h4k : k % 4 = 0) (h4d : dsz m pos % 4 = 0) :
    (ent_alloc m pos k).1 = some (pos + 4) ∧
    (k + 4 < dsz m pos →
      hdrGet (ent_alloc m pos k).2 pos = ⟨true, k⟩ ∧
      hdrGet (ent_alloc m pos k).2 (pos + 4 + k) = ⟨false, dsz m pos - k - 4⟩) ∧
    (dsz m pos = k + 4 →
      hdrGet (ent_alloc m pos k).2 pos = ⟨true, dsz m pos⟩ ∧
      ∀ a, a < pos ∨ pos + 4 ≤ a → (ent_alloc m pos k).2 a = m a) ∧
    (dsz m pos = k →
      hdrGet (ent_alloc m pos k).2 pos = ⟨true, k⟩ ∧
      ∀ a, a < pos ∨ pos + 4 ≤ a → (ent_alloc m pos k).2 a = m a) ∧
    (∀ a, a < pos ∨ pos + 4 + dsz m pos ≤ a → (ent_alloc m pos k).2 a = m a) := by
  have hd31 := dsz_lt m pos
  have hk31 : k < 2147483648 := by omega
  rw [ent_alloc_success hfree hk]
  refine ⟨rfl, ?_, ?_, ?_, ?_⟩
  · intro hlt
    constructor
    · rw [allocAt_hdr hk, if_neg (by omega)]
    · exact allocAt_newhdr hk h4k h4d (by omega) (by omega)
  · intro hfold
    constructor
    · rw [allocAt_hdr hk, if_pos hfold, hfold]
    · intro a ha
      rw [allocAt_fold hk31 hfold]
      exact hdrSet_frame _ _ (by omega)
  · intro hexact
    constructor
    · rw [allocAt_hdr hk, if_neg (by omega)]
    · intro a ha
      rw [allocAt_exact hk31 hexact]
      exact hdrSet_frame _ _ (by omega)
  · intro a ha
    exact allocAt_frame hk h4k h4d ha

/-- Witness for C2 on a concrete block: a free block of 24 bytes at 0, an
8-byte request: split into a used 8-byte block and a free 12-byte block. -/
theorem C2_split_correct_witness :
    (ent_alloc (hdrSet work_mem0 0 ⟨false, 24⟩) 0 8).1 = some (0 + 4) ∧
    hdrGet (ent_alloc (hdrSet work_mem0 0 ⟨false, 24⟩) 0 8).2 0 = ⟨true, 8⟩ ∧
    hdrGet (ent_alloc (hdrSet work_mem0 0 ⟨false, 24⟩) 0 8).2 12 = ⟨false, 12⟩ := by
  have h := C2_split_correct (hdrSet work_mem0 0 ⟨false, 24⟩) 0 8
    (by decide) (by decide) (by decide) (by decide)
  refine ⟨h.1, ?_, ?_⟩
  · have := (h.2.1 (by decide)).1
    simpa using this
  · have := (h.2.1 (by decide)).2
    have hd : dsz (hdrSet work_mem0 0 ⟨false, 24⟩) 0 = 24 := by decide
    rw [hd] at this
    simpa using this

/-- Claim C8 (amended: the request is at most 4294967292 = 2^32 - 4, so that
the uint32 round-up cannot wrap): when no free chain block can hold the
rounded request, dm_alloc returns NULL with the arena byte-for-byte unchanged,
and dm_realloc likewise returns NULL leaving everything (in particular the
original block) intact and unfreed. -/
theorem C8_exhaustion (SZ : Nat) (m : Mem) (s : Nat) (p : Option Nat)
    (hs : 0 < s) (hs2 : s ≤ 4294967292)
    (hno : ∀ q ∈ chain SZ m,
      ¬((hdrGet m q).used = false ∧ round4_spec s ≤ dsz m q)) :
    dm_alloc SZ m s = (none, m) ∧ dm_realloc SZ m p s = (none, m) := by
  have hf : firstFit SZ m (round4_spec s) = none := by
    rw [firstFit, List.find?_eq_none]
    intro q hq
    intro hfit
    exact hno q hq (fits_iff.mp hfit)
  have halloc : dm_alloc SZ m s = (none, m) := by
    rw [dm_alloc_spec SZ m hs hs2, hf]
  refine ⟨halloc, ?_⟩
  rw [dm_realloc, halloc]

/-- Witness for C8: a 16-byte arena whose only block is already used; an
8-byte request fails and changes nothing. -/
theorem C8_exhaustion_witness :
    dm_alloc 16 (hdrSet work_mem0 0 ⟨true, 12⟩) 8 = (none, hdrSet work_mem0 0 ⟨true, 12⟩) ∧
    dm_realloc 16 (hdrSet work_mem0 0 ⟨true, 12⟩) (some 4) 8 =
      (none, hdrSet work_mem0 0 ⟨true, 12⟩) := by
  apply C8_exhaustion 16 (hdrSet work_mem0 0 ⟨true, 12⟩) 8 (some 4) (by decide) (by decide)
  have hn : ent_get_next 16 (hdrSet work_mem0 0 ⟨true, 12⟩) (some 0) = none := by decide
  rw [chain, chainFrom_none hn]
  decide

/-- Claim C8 counterexample: at s = 4294967294 the uint32 round-up wraps to 0
and dm_alloc succeeds and mutates the arena, although no free block has
d_size at least the next multiple of 4 above s (which the claim says must
yield NULL with no state change). -/
theorem C8_counterexample :
    (∀ q ∈ chain 16 (dm_init 16 work_mem0),
        ¬((hdrGet (dm_init 16 work_mem0) q).used = false ∧
          round4_spec 4294967294 ≤ dsz (dm_init 16 work_mem0) q)) ∧
    (dm_alloc 16 (dm_init 16 work_mem0) 4294967294).2 0 ≠ dm_init 16 work_mem0 0 := by
  have hn : ent_get_next 16 (dm_init 16 work_mem0) (some 0) = none := by decide
  constructor
  · rw [chain, chainFrom_none hn]
    decide
  · rw [dm_alloc_pos _ _ (by decide)]
    rw [dm_alloc_scan_hit (by decide) (by decide)]
    decide

/- ### Alignment, the zero-size sentinel, free, and realloc-to-zero -/

theorem chainFrom_aligned {SZ : Nat} {m : Mem} {pos : Nat}
    (hal : ∀ q ∈ chainFrom SZ m pos, dsz m q % 4 = 0) (hpos : pos % 4 = 0) :
    ∀ q ∈ chainFrom SZ m pos, q % 4 = 0 := by
  intro q hq
  rcases chainFrom_mem_cases hq with h1 | ⟨nxt, hn, h1⟩
  · omega
  · have h2 := ent_get_next_some hn
    have h3 := hal pos (chainFrom_self SZ m pos)
    have h4 : ∀ r ∈ chainFrom SZ m nxt, dsz m r % 4 = 0 := by
      intro r hr
      apply hal
      rw [chainFrom_some hn]
      exact List.mem_cons_of_mem _ hr
    exact chainFrom_aligned h4 (by omega) q h1
termination_by SZ - pos
decreasing_by have := ent_get_next_some hn; omega

/-- Claim C4 (amended: the request is at most 4294967292, and when the chosen
free block is exactly one header larger than the rounded size the fold case
makes dm_get_size report rounded + 4 instead of rounded): a successful
dm_alloc on an aligned arena returns a 4-byte aligned payload pointer whose
dm_get_size is the rounded request, or rounded + 4 in the fold case. -/
theorem C4_alignment (SZ : Nat) (m : Mem) (s p : Nat)
    (hs : 0 < s) (hs2 : s ≤ 4294967292) (hSZ : 8 ≤ SZ)
    (hal : ∀ q ∈ chain SZ m, dsz m q % 4 = 0)
    (hp : (dm_alloc SZ m s).1 = some p) :
    p % 4 = 0 ∧
    (dm_get_size SZ (dm_alloc SZ m s).2 p = round4_spec s ∨
      dm_get_size SZ (dm_alloc SZ m s).2 p = round4_spec s + 4) := by
  cases hf : firstFit SZ m (round4_spec s) with
  | none =>
    have hz : dm_alloc SZ m s = (none, m) := by rw [dm_alloc_spec SZ m hs hs2, hf]
    rw [hz] at hp
    cases hp
  | some q =>
    have halloc : dm_alloc SZ m s = (some (q + 4), allocAt m q (round4_spec s)) := by
      rw [dm_alloc_spec SZ m hs hs2, hf]
    rw [halloc] at hp
    have hp2 : q + 4 = p := by simpa using hp
    subst hp2
    obtain ⟨hmem, hfree, hfit⟩ := firstFit_mem hf
    have hq4 : q % 4 = 0 := chainFrom_aligned hal (by omega) q hmem
    have hplt : q + 4 < SZ := by
      by_cases hq0 : q = 0
      · omega
      · exact chainFrom_tail_lt hmem hq0
    constructor
    · omega
    · rw [halloc]
      have hzm := zero_mem_def SZ
      rw [dm_get_size, if_neg (by omega)]
      have he : q + 4 - 4 = q := by omega
      rw [he]
      unfold dsz
      rw [allocAt_hdr hfit]
      split
      · right; rfl
      · left; rfl

/-- Witness for C4: allocating 5 bytes from a 20-byte arena rounds to 8 and
splits; the pointer is 4 and the reported size is 8. -/
theorem C4_alignment_witness :
    (4 : Nat) % 4 = 0 ∧
    (dm_get_size 20 (dm_alloc 20 (dm_init 20 work_mem0) 5).2 4 = round4_spec 5 ∨
      dm_get_size 20 (dm_alloc 20 (dm_init 20 work_mem0) 5).2 4 = round4_spec 5 + 4) := by
  have hal : ∀ q ∈ chain 20 (dm_init 20 work_mem0), dsz (dm_init 20 work_mem0) q % 4 = 0 := by
    have hn : ent_get_next 20 (dm_init 20 work_mem0) (some 0) = none := by decide
    rw [chain, chainFrom_none hn]
    decide
  have hp : (dm_alloc 20 (dm_init 20 work_mem0) 5).1 = some 4 := by
    rw [dm_alloc_pos _ _ (by decide)]
    rw [dm_alloc_scan_hit (by decide) (by decide)]
  exact C4_alignment 20 (dm_init 20 work_mem0) 5 4 (by decide) (by decide) (by decide) hal hp

/-- Claim C4 counterexample: on a fresh 16-byte arena (one free block of 12
bytes) an 8-byte request hits the fold case, and dm_get_size reports 12, not
the rounded size 8 the claim demands. -/
theorem C4_counterexample :
    (dm_alloc 16 (dm_init 16 work_mem0) 8).1 = some 4 ∧
    round4_spec 8 = 8 ∧
    dm_get_size 16 (dm_alloc 16 (dm_init 16 work_mem0) 8).2 4 = 12 := by
  have h1 : dm_alloc 16 (dm_init 16 work_mem0) 8 =
      (some (0 + 4), allocAt (dm_init 16 work_mem0) 0 8) := by
    rw [dm_alloc_pos _ _ (by decide)]
    exact dm_alloc_scan_hit (by decide) (by decide)
  rw [h1]
  refine ⟨rfl, by decide, ?_⟩
  have hfold : allocAt (dm_init 16 work_mem0) 0 8 = hdrSet (dm_init 16 work_mem0) 0 ⟨true, 12⟩ := by
    apply allocAt_fold (by decide)
    decide
  rw [hfold]
  decide

/-- Claim C6: dm_alloc(0) returns the address of zero_mem with no state
change; that address differs from every payload address of the chain;
dm_free on the sentinel and on NULL are no-ops; dm_get_size of the sentinel
is 0. -/
theorem C6_zero_sentinel (SZ : Nat) (m : Mem) (hSZ : 8 ≤ SZ) :
    dm_alloc SZ m 0 = (some (zero_mem SZ), m) ∧
    (∀ q ∈ chain SZ m, q + 4 ≠ zero_mem SZ) ∧
    dm_free SZ m (some (zero_mem SZ)) = m ∧
    dm_free SZ m none = m ∧
    dm_get_size SZ m (zero_mem SZ) = 0 := by
  refine ⟨dm_alloc_zero SZ m, ?_, ?_, rfl, ?_⟩
  · intro q hq
    have hzm := zero_mem_def SZ
    by_cases hq0 : q = 0
    · omega
    · have := chainFrom_tail_lt hq hq0
      omega
  · rw [dm_free, if_pos rfl]
  · rw [dm_get_size, if_pos rfl]

/-- Witness for C6 at a concrete arena of 16 bytes. -/
theorem C6_zero_sentinel_witness :
    dm_alloc 16 (dm_init 16 work_mem0) 0 = (some (zero_mem 16), dm_init 16 work_mem0) ∧
    (∀ q ∈ chain 16 (dm_init 16 work_mem0), q + 4 ≠ zero_mem 16) ∧
    dm_free 16 (dm_init 16 work_mem0) (some (zero_mem 16)) = dm_init 16 work_mem0 ∧
    dm_free 16 (dm_init 16 work_mem0) none = dm_init 16 work_mem0 ∧
    dm_get_size 16 (dm_init 16 work_mem0) (zero_mem 16) = 0 :=
  C6_zero_sentinel 16 (dm_init 16 work_mem0) (by decide)

theorem memcpy_zero (m : Mem) (dst src : Nat) : memcpy m dst src 0 = m := by
  funext a
  unfold memcpy
  rw [if_neg (by omega)]

theorem memcpy_in {m : Mem} {dst src n a : Nat} (h : dst ≤ a ∧ a < dst + n) :
    memcpy m dst src n a = m (src + (a - dst)) := by
  unfold memcpy
  rw [if_pos h]

theorem memcpy_out {m : Mem} {dst src n a : Nat} (h : a < dst ∨ dst + n ≤ a) :
    memcpy m dst src n a = m a := by
  unfold memcpy
  rw [if_neg (by omega)]

/- ### dm_free: a pure flag clear -/

/-- Clearing the used flag of a chain block does not change the chain: the
write stays inside that block's header and keeps its d_size. -/
theorem chainFrom_free_eq {SZ : Nat} {m : Mem} {pos : Nat} (start : Nat)
    (h : pos ∈ chainFrom SZ m start ∨ pos + 4 ≤ start) :
    chainFrom SZ (hdrSet m pos ⟨false, dsz m pos⟩) start = chainFrom SZ m start := by
  have hd31 := dsz_lt m pos
  have hds : dsz (hdrSet m pos ⟨false, dsz m pos⟩) start = dsz m start := by
    by_cases hsp : start = pos
    · subst hsp
      rw [dsz_hdrSet_self]
      exact Nat.mod_eq_of_lt hd31
    · rcases h with h | h
      · have := chainFrom_tail_ge h (fun he => hsp he.symm)
        exact dsz_hdrSet_ne _ _ (by omega)
      · exact dsz_hdrSet_ne _ _ (by omega)
  have hnext : ent_get_next SZ (hdrSet m pos ⟨false, dsz m pos⟩) (some start) =
      ent_get_next SZ m (some start) := by
    simp only [ent_get_next, hds]
  cases hn : ent_get_next SZ m (some start) with
  | none =>
    rw [chainFrom_none hn, chainFrom_none (hnext.trans hn)]
  | some nxt =>
    have hrest : pos ∈ chainFrom SZ m nxt ∨ pos + 4 ≤ nxt := by
      have h2 := ent_get_next_some hn
      rcases h with h | h
      · by_cases hsp : pos = start
        · subst hsp; right; omega
        · rcases chainFrom_mem_cases h with h3 | ⟨nxt2, hn2, h3⟩
          · exact absurd h3 hsp
          · rw [hn] at hn2; cases hn2; left; exact h3
      · right; omega
    rw [chainFrom_some hn, chainFrom_some (hnext.trans hn)]
    rw [chainFrom_free_eq nxt hrest]
termination_by SZ - start
decreasing_by have := ent_get_next_some hn; omega

/-- Claim C9: freeing a valid outstanding pointer clears the used flag of the
header exactly 4 bytes before it and changes nothing else: the block's d_size,
every byte outside that header word, and the whole chain are unchanged, so no
blocks are merged. -/
theorem C9_free_frame (SZ : Nat) (m : Mem) (pos dp : Nat)
    (hmem : pos ∈ chain SZ m) (hdp : dp = pos + 4) (hzm : dp ≠ zero_mem SZ)
    (hused : (hdrGet m pos).used = true) :
    (hdrGet (dm_free SZ m (some dp)) pos).used = false ∧
    dsz (dm_free SZ m (some dp)) pos = dsz m pos ∧
    (∀ a, a < pos ∨ pos + 4 ≤ a → dm_free SZ m (some dp) a = m a) ∧
    chain SZ (dm_free SZ m (some dp)) = chain SZ m := by
  have hd31 := dsz_lt m pos
  have hfree : dm_free SZ m (some dp) = hdrSet m pos ⟨false, dsz m pos⟩ := by
    rw [dm_free, if_neg hzm, hdp]
    have he : pos + 4 - 4 = pos := by omega
    rw [he]
  rw [hfree]
  refine ⟨?_, ?_, ?_, ?_⟩
  · rw [hdrGet_hdrSet]
  · rw [dsz_hdrSet_self]
    exact Nat.mod_eq_of_lt hd31
  · intro a ha
    exact hdrSet_frame _ _ ha
  · exact chainFrom_free_eq 0 (Or.inl hmem)

/-- Witness for C9: freeing the used 4-byte block at 0 of a two-block arena. -/
theorem C9_free_frame_witness :
    (hdrGet (dm_free 16 (hdrSet (hdrSet work_mem0 0 ⟨true, 4⟩) 8 ⟨false, 4⟩) (some 4)) 0).used
        = false ∧
    dsz (dm_free 16 (hdrSet (hdrSet work_mem0 0 ⟨true, 4⟩) 8 ⟨false, 4⟩) (some 4)) 0 =
      dsz (hdrSet (hdrSet work_mem0 0 ⟨true, 4⟩) 8 ⟨false, 4⟩) 0 ∧
    (∀ a, a < 0 ∨ 0 + 4 ≤ a →
      dm_free 16 (hdrSet (hdrSet work_mem0 0 ⟨true, 4⟩) 8 ⟨false, 4⟩) (some 4) a =
        hdrSet (hdrSet work_mem0 0 ⟨true, 4⟩) 8 ⟨false, 4⟩ a) ∧
    chain 16 (dm_free 16 (hdrSet (hdrSet work_mem0 0 ⟨true, 4⟩) 8 ⟨false, 4⟩) (some 4)) =
      chain 16 (hdrSet (hdrSet work_mem0 0 ⟨true, 4⟩) 8 ⟨false, 4⟩) := by
  apply C9_free_frame 16 (hdrSet (hdrSet work_mem0 0 ⟨true, 4⟩) 8 ⟨false, 4⟩) 0 4
  · exact chainFrom_self _ _ _
  · rfl
  · decide
  · decide

/-- Claim C10: on a valid outstanding pointer of nonzero size, dm_realloc with
new_size 0 returns the zero_mem sentinel (a non-null result) and the state is
exactly that of freeing the pointer: no bytes are copied and the block's used
flag is cleared. -/
theorem C10_realloc_zero (SZ : Nat) (m : Mem) (pos dp : Nat)
    (hmem : pos ∈ chain SZ m) (hdp : dp = pos + 4) (hzm : dp ≠ zero_mem SZ)
    (hused : (hdrGet m pos).used = true) (hsz : 0 < dm_get_size SZ m dp) :
    dm_realloc SZ m (some dp) 0 = (some (zero_mem SZ), dm_free SZ m (some dp)) ∧
    (hdrGet (dm_realloc SZ m (some dp) 0).2 pos).used = false := by
  have hre : dm_realloc SZ m (some dp) 0 = (some (zero_mem SZ), dm_free SZ m (some dp)) := by
    rw [dm_realloc, dm_alloc_zero]
    simp only
    rw [if_pos (by omega)]
    have hmin : min 0 (dm_get_size SZ m dp) = 0 := by omega
    rw [hmin, memcpy_zero]
  refine ⟨hre, ?_⟩
  rw [hre]
  simp only
  rw [dm_free, if_neg hzm, hdp]
  have he : pos + 4 - 4 = pos := by omega
  rw [he, hdrGet_hdrSet]

/-- Witness for C10: realloc-to-zero of the used block at 0 of a 16-byte
arena. -/
theorem C10_realloc_zero_witness :
    dm_realloc 16 (hdrSet work_mem0 0 ⟨true, 12⟩) (some 4) 0 =
      (some (zero_mem 16), dm_free 16 (hdrSet work_mem0 0 ⟨true, 12⟩) (some 4)) ∧
    (hdrGet (dm_realloc 16 (hdrSet work_mem0 0 ⟨true, 12⟩) (some 4) 0).2 0).used = false := by
  apply C10_realloc_zero 16 (hdrSet work_mem0 0 ⟨true, 12⟩) 0 4
  · exact chainFrom_self _ _ _
  · rfl
  · decide
  · decide
  · decide

/- ### dm_monitor: reference counts over the chain -/

/-- The free blocks of a position list. -/
def monFreeList (m : Mem) (l : List Nat) : List Nat :=
  l.filter (fun q => !(hdrGet m q).used)

/-- The sizes of the free blocks of a position list. -/
def monSizes (m : Mem) (l : List Nat) : List Nat := (monFreeList m l).map (dsz m)

/-- Reference free-block count: simulate the walk over the chain. -/
def cnt_free_ref (SZ : Nat) (m : Mem) : Nat := (monFreeList m (chain SZ m)).length

/-- Reference used-block count. -/
def cnt_used_ref (SZ : Nat) (m : Mem) : Nat :=
  ((chain SZ m).filter (fun q => (hdrGet m q).used)).length

/-- Reference total free payload bytes. -/
def size_free_ref (SZ : Nat) (m : Mem) : Nat := (monSizes m (chain SZ m)).sum

/-- Reference size of the single largest free block. -/
def size_free_big_ref (SZ : Nat) (m : Mem) : Nat :=
  (monSizes m (chain SZ m)).foldr max 0

theorem dm_monitor_loop_none {SZ : Nat} {m : Mem} {pos : Nat} {mon : dm_mon_t}
    (h : ent_get_next SZ m (some pos) = none) :
    dm_monitor_loop SZ m pos mon = monStep m pos mon := by
  rw [dm_monitor_loop]
  split
  next nxt heq => rw [h] at heq; cases heq
  next => rfl

theorem dm_monitor_loop_some {SZ : Nat} {m : Mem} {pos nxt : Nat} {mon : dm_mon_t}
    (h : ent_get_next SZ m (some pos) = some nxt) :
    dm_monitor_loop SZ m pos mon = dm_monitor_loop SZ m nxt (monStep m pos mon) := by
  rw [dm_monitor_loop]
  split
  next nxt2 heq => rw [h] at heq; cases heq; rfl
  next heq => rw [h] at heq; cases heq

/-- Fields produced by a monitor step stay below 2^32 when they start there. -/
theorem monStep_lt {m : Mem} {pos : Nat} {mon : dm_mon_t}
    (h1 : mon.cnt_free < 4294967296) (h2 : mon.cnt_used < 4294967296)
    (h3 : mon.size_free < 4294967296) :
    (monStep m pos mon).cnt_free < 4294967296 ∧
    (monStep m pos mon).cnt_used < 4294967296 ∧
    (monStep m pos mon).size_free < 4294967296 := by
  unfold monStep
  split
  · refine ⟨?_, ?_, ?_⟩
    · show (mon.cnt_free + 1) % 4294967296 < 4294967296
      omega
    · show mon.cnt_used < 4294967296
      omega
    · show (mon.size_free + dsz m pos) % 4294967296 < 4294967296
      omega
  · refine ⟨?_, ?_, ?_⟩
    · show mon.cnt_free < 4294967296
      omega
    · show (mon.cnt_used + 1) % 4294967296 < 4294967296
      omega
    · show mon.size_free < 4294967296
      omega

theorem monStep_free {m : Mem} {pos : Nat} (mon : dm_mon_t)
    (hu : (hdrGet m pos).used = false) :
    (monStep m pos mon).cnt_free = (mon.cnt_free + 1) % 4294967296 ∧
    (monStep m pos mon).cnt_used = mon.cnt_used ∧
    (monStep m pos mon).size_free = (mon.size_free + dsz m pos) % 4294967296 ∧
    (monStep m pos mon).size_free_big = max mon.size_free_big (dsz m pos) ∧
    (monStep m pos mon).pct_frag = mon.pct_frag := by
  unfold monStep
  rw [if_pos hu]
  refine ⟨rfl, rfl, rfl, ?_, rfl⟩
  simp only
  rcases Nat.lt_or_ge mon.size_free_big (dsz m pos) with h | h
  · rw [if_pos h]
    omega
  · rw [if_neg (by omega)]
    omega

theorem monStep_used {m : Mem} {pos : Nat} (mon : dm_mon_t)
    (hu : (hdrGet m pos).used = true) :
    (monStep m pos mon).cnt_free = mon.cnt_free ∧
    (monStep m pos mon).cnt_used = (mon.cnt_used + 1) % 4294967296 ∧
    (monStep m pos mon).size_free = mon.size_free ∧
    (monStep m pos mon).size_free_big = mon.size_free_big ∧
    (monStep m pos mon).pct_frag = mon.pct_frag := by
  unfold monStep
  rw [if_neg (by rw [hu]; exact fun h => nomatch h)]
  exact ⟨rfl, rfl, rfl, rfl, rfl⟩

/-- The monitor loop accumulates exactly the reference walk of the chain
suffix: counters and byte totals wrap mod 2^32, the largest free block is
tracked exactly, pct_frag is untouched. -/
theorem dm_monitor_loop_spec (SZ : Nat) (m : Mem) (pos : Nat) (mon : dm_mon_t)
    (hb1 : mon.cnt_free < 4294967296) (hb2 : mon.cnt_used < 4294967296)
    (hb3 : mon.size_free < 4294967296) :
    (dm_monitor_loop SZ m pos mon).cnt_free =
      (mon.cnt_free + (monFreeList m (chainFrom SZ m pos)).length) % 4294967296 ∧
    (dm_monitor_loop SZ m pos mon).cnt_used =
      (mon.cnt_used +
        ((chainFrom SZ m pos).filter (fun q => (hdrGet m q).used)).length) % 4294967296 ∧
    (dm_monitor_loop SZ m pos mon).size_free =
      (mon.size_free + (monSizes m (chainFrom SZ m pos)).sum) % 4294967296 ∧
    (dm_monitor_loop SZ m pos mon).size_free_big =
      max mon.size_free_big ((monSizes m (chainFrom SZ m pos)).foldr max 0) ∧
    (dm_monitor_loop SZ m pos mon).pct_frag = mon.pct_frag := by
  by_cases hu : (hdrGet m pos).used = false
  case pos =>
    have hstep := @monStep_free m pos mon hu
    cases hn : ent_get_next SZ m (some pos) with
    | none =>
      have hfl1 : monFreeList m [pos] = [pos] := by
        unfold monFreeList
        rw [List.filter_cons]
        simp [hu]
      have hms1 : monSizes m [pos] = [dsz m pos] := by
        unfold monSizes
        rw [hfl1]
        rfl
      have hul : ([pos].filter (fun q => (hdrGet m q).used)) = [] := by
        rw [List.filter_cons]
        simp [hu]
      rw [dm_monitor_loop_none hn, chainFrom_none hn, hfl1, hms1, hul]
      simp only [List.length_cons, List.length_nil, List.sum_cons, List.sum_nil,
        List.foldr_cons, List.foldr_nil]
      refine ⟨?_, ?_, ?_, ?_, hstep.2.2.2.2⟩
      · rw [hstep.1]
      · rw [hstep.2.1]; omega
      · rw [hstep.2.2.1]; omega
      · rw [hstep.2.2.2.1]; omega
    | some nxt =>
      obtain ⟨hnn, hlt2⟩ := ent_get_next_some hn
      subst hnn
      have hfl : monFreeList m (pos :: chainFrom SZ m (pos + 4 + dsz m pos)) =
          pos :: monFreeList m (chainFrom SZ m (pos + 4 + dsz m pos)) := by
        unfold monFreeList
        rw [List.filter_cons]
        simp [hu]
      have hms : monSizes m (pos :: chainFrom SZ m (pos + 4 + dsz m pos)) =
          dsz m pos :: monSizes m (chainFrom SZ m (pos + 4 + dsz m pos)) := by
        unfold monSizes
        rw [hfl]
        rfl
      have hul : ((pos :: chainFrom SZ m (pos + 4 + dsz m pos)).filter
            (fun q => (hdrGet m q).used)) =
          (chainFrom SZ m (pos + 4 + dsz m pos)).filter (fun q => (hdrGet m q).used) := by
        rw [List.filter_cons]
        simp [hu]
      have hmlt := @monStep_lt m pos mon hb1 hb2 hb3
      obtain ⟨i1, i2, i3, i4, i5⟩ :=
        dm_monitor_loop_spec SZ m (pos + 4 + dsz m pos) (monStep m pos mon)
          hmlt.1 hmlt.2.1 hmlt.2.2
      rw [dm_monitor_loop_some hn, chainFrom_some hn, hfl, hms, hul]
      simp only [List.length_cons, List.sum_cons, List.foldr_cons]
      refine ⟨?_, ?_, ?_, ?_, ?_⟩
      · rw [i1, hstep.1]; omega
      · rw [i2, hstep.2.1]
      · rw [i3, hstep.2.2.1]; omega
      · rw [i4, hstep.2.2.2.1]
        exact (Nat.max_assoc _ _ _).symm ▸ rfl
      · rw [i5, hstep.2.2.2.2]
  case neg =>
    have hu2 : (hdrGet m pos).used = true := by
      cases h2 : (hdrGet m pos).used
      · exact absurd h2 hu
      · rfl
    have hstep := @monStep_used m pos mon hu2
    cases hn : ent_get_next SZ m (some pos) with
    | none =>
      have hfl1 : monFreeList m [pos] = [] := by
        unfold monFreeList
        rw [List.filter_cons]
        simp [hu2]
      have hms1 : monSizes m [pos] = [] := by
        unfold monSizes
        rw [hfl1]
        rfl
      have hul : ([pos].filter (fun q => (hdrGet m q).used)) = [pos] := by
        rw [List.filter_cons]
        simp [hu2]
      rw [dm_monitor_loop_none hn, chainFrom_none hn, hfl1, hms1, hul]
      simp only [List.length_cons, List.length_nil, List.sum_nil, List.foldr_nil]
      refine ⟨?_, ?_, ?_, ?_, hstep.2.2.2.2⟩
      · rw [hstep.1]; omega
      · rw [hstep.2.1]
      · rw [hstep.2.2.1]; omega
      · rw [hstep.2.2.2.1]; omega
    | some nxt =>
      obtain ⟨hnn, hlt2⟩ := ent_get_next_some hn
      subst hnn
      have hfl : monFreeList m (pos :: chainFrom SZ m (pos + 4 + dsz m pos)) =
          monFreeList m (chainFrom SZ m (pos + 4 + dsz m pos)) := by
        unfold monFreeList
        rw [List.filter_cons]
        simp [hu2]
      have hms : monSizes m (pos :: chainFrom SZ m (pos + 4 + dsz m pos)) =
          monSizes m (chainFrom SZ m (pos + 4 + dsz m pos)) := by
        unfold monSizes
        rw [hfl]
      have hul : ((pos :: chainFrom SZ m (pos + 4 + dsz m pos)).filter
            (fun q => (hdrGet m q).used)) =
          pos :: (chainFrom SZ m (pos + 4 + dsz m pos)).filter
            (fun q => (hdrGet m q).used) := by
        rw [List.filter_cons]
        simp [hu2]
      have hmlt := @monStep_lt m pos mon hb1 hb2 hb3
      obtain ⟨i1, i2, i3, i4, i5⟩ :=
        dm_monitor_loop_spec SZ m (pos + 4 + dsz m pos) (monStep m pos mon)
          hmlt.1 hmlt.2.1 hmlt.2.2
      rw [dm_monitor_loop_some hn, chainFrom_some hn, hfl, hms, hul]
      simp only [List.length_cons]
      refine ⟨?_, ?_, ?_, ?_, ?_⟩
      · rw [i1, hstep.1]
      · rw [i2, hstep.2.1]; omega
      · rw [i3, hstep.2.2.1]
      · rw [i4, hstep.2.2.2.1]
      · rw [i5, hstep.2.2.2.2]
termination_by SZ - pos
decreasing_by all_goals omega

theorem foldr_max_le_sum (l : List Nat) : l.foldr max 0 ≤ l.sum := by
  induction l with
  | nil => simp
  | cons x xs ih =>
    simp only [List.foldr_cons, List.sum_cons]
    omega

/-- Claim C5 (amended: the fragmentation percentage follows the formula only
while the uint32 product largest_free_block * 100 does not wrap mod 2^32, and
the counters and byte total are exact while they fit in uint32): with at least
one free byte, dm_monitor reports exactly the free/used block counts, total
free bytes and largest free block of an address-order walk of the chain, and
sets the fragmentation percentage to 100 - 100 * largest / total.  The
operation returns only the record and touches no arena state. -/
theorem C5_monitor (SZ : Nat) (m : Mem)
    (hc1 : cnt_free_ref SZ m < 4294967296) (hc2 : cnt_used_ref SZ m < 4294967296)
    (hc3 : size_free_ref SZ m < 4294967296) :
    (dm_monitor SZ m).cnt_free = cnt_free_ref SZ m ∧
    (dm_monitor SZ m).cnt_used = cnt_used_ref SZ m ∧
    (dm_monitor SZ m).size_free = size_free_ref SZ m ∧
    (dm_monitor SZ m).size_free_big = size_free_big_ref SZ m ∧
    (0 < size_free_ref SZ m → size_free_big_ref SZ m * 100 < 4294967296 →
      (dm_monitor SZ m).pct_frag =
        100 - 100 * size_free_big_ref SZ m / size_free_ref SZ m) := by
  obtain ⟨i1, i2, i3, i4, i5⟩ :=
    dm_monitor_loop_spec SZ m 0 ⟨0, 0, 0, 0, 0⟩ (by decide) (by decide) (by decide)
  have e1 : (dm_monitor_loop SZ m 0 ⟨0, 0, 0, 0, 0⟩).cnt_free = cnt_free_ref SZ m := by
    rw [i1]
    show (0 + (monFreeList m (chain SZ m)).length) % 4294967296 = cnt_free_ref SZ m
    unfold cnt_free_ref at hc1 ⊢
    omega
  have e2 : (dm_monitor_loop SZ m 0 ⟨0, 0, 0, 0, 0⟩).cnt_used = cnt_used_ref SZ m := by
    rw [i2]
    show (0 + ((chain SZ m).filter (fun q => (hdrGet m q).used)).length) % 4294967296 =
      cnt_used_ref SZ m
    unfold cnt_used_ref at hc2 ⊢
    omega
  have e3 : (dm_monitor_loop SZ m 0 ⟨0, 0, 0, 0, 0⟩).size_free = size_free_ref SZ m := by
    rw [i3]
    show (0 + (monSizes m (chain SZ m)).sum) % 4294967296 = size_free_ref SZ m
    unfold size_free_ref at hc3 ⊢
    omega
  have e4 : (dm_monitor_loop SZ m 0 ⟨0, 0, 0, 0, 0⟩).size_free_big =
      size_free_big_ref SZ m := by
    rw [i4]
    show max 0 ((monSizes m (chain SZ m)).foldr max 0) = size_free_big_ref SZ m
    unfold size_free_big_ref
    omega
  have hmon : dm_monitor SZ m =
      { dm_monitor_loop SZ m 0 ⟨0, 0, 0, 0, 0⟩ with
        pct_frag := (4294967296 + 100 -
          (dm_monitor_loop SZ m 0 ⟨0, 0, 0, 0, 0⟩).size_free_big * 100 % 4294967296 /
            (dm_monitor_loop SZ m 0 ⟨0, 0, 0, 0, 0⟩).size_free) % 4294967296 } := rfl
  rw [hmon]
  refine ⟨e1, e2, e3, e4, ?_⟩
  intro hpos hbig
  show (4294967296 + 100 -
      (dm_monitor_loop SZ m 0 ⟨0, 0, 0, 0, 0⟩).size_free_big * 100 % 4294967296 /
        (dm_monitor_loop SZ m 0 ⟨0, 0, 0, 0, 0⟩).size_free) % 4294967296 =
    100 - 100 * size_free_big_ref SZ m / size_free_ref SZ m
  rw [e3, e4]
  have hmod : size_free_big_ref SZ m * 100 % 4294967296 = size_free_big_ref SZ m * 100 :=
    Nat.mod_eq_of_lt hbig
  rw [hmod]
  have hle : size_free_big_ref SZ m ≤ size_free_ref SZ m := by
    unfold size_free_big_ref size_free_ref
    exact foldr_max_le_sum _
  have hp100 : size_free_big_ref SZ m * 100 / size_free_ref SZ m ≤ 100 := by
    have h1 : size_free_big_ref SZ m * 100 ≤ size_free_ref SZ m * 100 :=
      Nat.mul_le_mul_right 100 hle
    have h2 : size_free_big_ref SZ m * 100 / size_free_ref SZ m ≤
        size_free_ref SZ m * 100 / size_free_ref SZ m :=
      Nat.div_le_div_right h1
    have h3 : size_free_ref SZ m * 100 / size_free_ref SZ m = 100 := by
      rw [Nat.mul_comm]
      exact Nat.mul_div_cancel 100 hpos
    omega
  have hcomm : size_free_big_ref SZ m * 100 = 100 * size_free_big_ref SZ m :=
    Nat.mul_comm _ _
  rw [hcomm] at hp100 ⊢
  generalize 100 * size_free_big_ref SZ m / size_free_ref SZ m = p1 at hp100 ⊢
  omega

/-- Witness for C5: a 24-byte arena with a used 4-byte block at 0 and a free
12-byte block at 8. -/
theorem C5_monitor_witness :
    (dm_monitor 24 (hdrSet (hdrSet work_mem0 0 ⟨true, 4⟩) 8 ⟨false, 12⟩)).cnt_free =
      cnt_free_ref 24 (hdrSet (hdrSet work_mem0 0 ⟨true, 4⟩) 8 ⟨false, 12⟩) ∧
    (dm_monitor 24 (hdrSet (hdrSet work_mem0 0 ⟨true, 4⟩) 8 ⟨false, 12⟩)).cnt_used =
      cnt_used_ref 24 (hdrSet (hdrSet work_mem0 0 ⟨true, 4⟩) 8 ⟨false, 12⟩) ∧
    (dm_monitor 24 (hdrSet (hdrSet work_mem0 0 ⟨true, 4⟩) 8 ⟨false, 12⟩)).size_free =
      size_free_ref 24 (hdrSet (hdrSet work_mem0 0 ⟨true, 4⟩) 8 ⟨false, 12⟩) ∧
    (dm_monitor 24 (hdrSet (hdrSet work_mem0 0 ⟨true, 4⟩) 8 ⟨false, 12⟩)).size_free_big =
      size_free_big_ref 24 (hdrSet (hdrSet work_mem0 0 ⟨true, 4⟩) 8 ⟨false, 12⟩) ∧
    (0 < size_free_ref 24 (hdrSet (hdrSet work_mem0 0 ⟨true, 4⟩) 8 ⟨false, 12⟩) →
      size_free_big_ref 24 (hdrSet (hdrSet work_mem0 0 ⟨true, 4⟩) 8 ⟨false, 12⟩) * 100 <
        4294967296 →
      (dm_monitor 24 (hdrSet (hdrSet work_mem0 0 ⟨true, 4⟩) 8 ⟨false, 12⟩)).pct_frag =
        100 - 100 * size_free_big_ref 24 (hdrSet (hdrSet work_mem0 0 ⟨true, 4⟩) 8 ⟨false, 12⟩) /
          size_free_ref 24 (hdrSet (hdrSet work_mem0 0 ⟨true, 4⟩) 8 ⟨false, 12⟩)) := by
  have h1 : ent_get_next 24 (hdrSet (hdrSet work_mem0 0 ⟨true, 4⟩) 8 ⟨false, 12⟩) (some 0) =
      some 8 := by decide
  have h2 : ent_get_next 24 (hdrSet (hdrSet work_mem0 0 ⟨true, 4⟩) 8 ⟨false, 12⟩) (some 8) =
      none := by decide
  have hch : chain 24 (hdrSet (hdrSet work_mem0 0 ⟨true, 4⟩) 8 ⟨false, 12⟩) = [0, 8] := by
    rw [chain, chainFrom_some h1, chainFrom_none h2]
  apply C5_monitor
  · rw [cnt_free_ref, hch]; decide
  · rw [cnt_used_ref, hch]; decide
  · rw [size_free_ref, hch]; decide

/-- Claim C5 counterexample: on a fresh 100000000-byte arena the single free
block has 99999996 bytes, the uint32 product 99999996 * 100 wraps mod 2^32,
and dm_monitor reports a fragmentation percentage of 86 where the claimed
formula gives 0. -/
theorem C5_counterexample :
    0 < size_free_ref 100000000 (dm_init 100000000 work_mem0) ∧
    (dm_monitor 100000000 (dm_init 100000000 work_mem0)).pct_frag = 86 ∧
    100 - 100 * size_free_big_ref 100000000 (dm_init 100000000 work_mem0) /
        size_free_ref 100000000 (dm_init 100000000 work_mem0) = 0 := by
  have hn : ent_get_next 100000000 (dm_init 100000000 work_mem0) (some 0) = none := by
    decide
  have hch : chain 100000000 (dm_init 100000000 work_mem0) = [0] := by
    rw [chain, chainFrom_none hn]
  refine ⟨?_, ?_, ?_⟩
  · rw [size_free_ref, hch]; decide
  · have hmon : dm_monitor 100000000 (dm_init 100000000 work_mem0) =
        { dm_monitor_loop 100000000 (dm_init 100000000 work_mem0) 0 ⟨0, 0, 0, 0, 0⟩ with
          pct_frag := (4294967296 + 100 -
            (dm_monitor_loop 100000000 (dm_init 100000000 work_mem0) 0
                ⟨0, 0, 0, 0, 0⟩).size_free_big * 100 % 4294967296 /
              (dm_monitor_loop 100000000 (dm_init 100000000 work_mem0) 0
                ⟨0, 0, 0, 0, 0⟩).size_free) % 4294967296 } := rfl
    rw [hmon, dm_monitor_loop_none hn]
    decide
  · rw [size_free_ref, size_free_big_ref, hch]
    decide

/- ### dm_realloc: case reductions and content preservation -/

theorem dm_realloc_fail {SZ : Nat} {m m1 : Mem} {p : Option Nat} {ns : Nat}
    (h : dm_alloc SZ m ns = (none, m1)) : dm_realloc SZ m p ns = (none, m1) := by
  rw [dm_realloc, h]

theorem dm_realloc_null {SZ : Nat} {m m1 : Mem} {ns np : Nat}
    (h : dm_alloc SZ m ns = (some np, m1)) : dm_realloc SZ m none ns = (some np, m1) := by
  rw [dm_realloc, h]

theorem dm_realloc_nocopy {SZ : Nat} {m m1 : Mem} {dp ns np : Nat}
    (h : dm_alloc SZ m ns = (some np, m1)) (hold : dm_get_size SZ m1 dp = 0) :
    dm_realloc SZ m (some dp) ns = (some np, m1) := by
  rw [dm_realloc, h]
  simp only [hold]
  rw [if_neg (by omega)]

theorem dm_realloc_copy {SZ : Nat} {m m1 : Mem} {dp ns np : Nat}
    (h : dm_alloc SZ m ns = (some np, m1)) (hold : dm_get_size SZ m1 dp ≠ 0) :
    dm_realloc SZ m (some dp) ns =
      (some np,
        dm_free SZ (memcpy m1 np dp (min ns (dm_get_size SZ m1 dp))) (some dp)) := by
  rw [dm_realloc, h]
  simp only
  rw [if_pos hold]

/-- Claim C7 (amended: new_size at most 4294967292 = 2^32 - 4, so that the
uint32 round-up cannot wrap and overrun the new block): for a valid
outstanding allocation p of nonzero size on an aligned arena, a successful
non-sentinel dm_realloc(p, new_size) preserves the first
min(old_size, new_size) payload bytes and frees p's block; on NULL or the
zero-size sentinel, dm_realloc behaves exactly as dm_alloc(new_size). -/
theorem C7_content (SZ : Nat) (m : Mem) (pos dp ns q : Nat)
    (hSZ : 8 ≤ SZ) (hal : ∀ r ∈ chain SZ m, dsz m r % 4 = 0)
    (hmem : pos ∈ chain SZ m) (hdp : dp = pos + 4)
    (hused : (hdrGet m pos).used = true) (hold : 0 < dsz m pos)
    (hns : ns ≤ 4294967292)
    (hq : (dm_realloc SZ m (some dp) ns).1 = some q) (hqz : q ≠ zero_mem SZ) :
    (∀ i, i < min ns (dsz m pos) →
      (dm_realloc SZ m (some dp) ns).2 (q + i) = m (dp + i)) ∧
    (hdrGet (dm_realloc SZ m (some dp) ns).2 pos).used = false ∧
    dm_realloc SZ m none ns = dm_alloc SZ m ns ∧
    dm_realloc SZ m (some (zero_mem SZ)) ns = dm_alloc SZ m ns := by
  have hz := zero_mem_def SZ
  have hA1 : dm_realloc SZ m none ns = dm_alloc SZ m ns := by
    cases h : dm_alloc SZ m ns with
    | mk r m1 =>
      cases r with
      | none => rw [dm_realloc_fail h]
      | some np => rw [dm_realloc_null h]
  have hA2 : dm_realloc SZ m (some (zero_mem SZ)) ns = dm_alloc SZ m ns := by
    cases h : dm_alloc SZ m ns with
    | mk r m1 =>
      cases r with
      | none => rw [dm_realloc_fail h]
      | some np =>
        have h0 : dm_get_size SZ m1 (zero_mem SZ) = 0 := by rw [dm_get_size, if_pos rfl]
        rw [dm_realloc_nocopy h h0]
  have hdpz : dp ≠ zero_mem SZ := by
    by_cases h0 : pos = 0
    · omega
    · have := chainFrom_tail_lt hmem h0
      omega
  by_cases hns0 : ns = 0
  · exfalso
    subst hns0
    have halloc := dm_alloc_zero SZ m
    have hgs : dm_get_size SZ m dp = dsz m pos := by
      rw [dm_get_size, if_neg hdpz, hdp]
      have he : pos + 4 - 4 = pos := by omega
      rw [he]
    have hre := dm_realloc_copy halloc (by rw [hgs]; omega)
    rw [hre] at hq
    have : zero_mem SZ = q := by simpa using hq
    exact hqz this.symm
  · cases hf : firstFit SZ m (round4_spec ns) with
    | none =>
      exfalso
      have hfail : dm_alloc SZ m ns = (none, m) := by
        rw [dm_alloc_spec SZ m (by omega) hns, hf]
      rw [dm_realloc_fail hfail] at hq
      simp at hq
    | some ps =>
      have halloc : dm_alloc SZ m ns = (some (ps + 4), allocAt m ps (round4_spec ns)) := by
        rw [dm_alloc_spec SZ m (by omega) hns, hf]
      obtain ⟨hpmem, hpfree, hpfit⟩ := firstFit_mem hf
      have hpne : ps ≠ pos := by
        intro he
        rw [he, hused] at hpfree
        cases hpfree
      have hdisj := chainFrom_disjoint hpmem hmem hpne
      have h4k : round4_spec ns % 4 = 0 := round4_spec_mod4 ns
      have h4d : dsz m ps % 4 = 0 := hal ps hpmem
      have hkns : ns ≤ round4_spec ns := round4_spec_ge ns
      have hfr : ∀ a, a < ps ∨ ps + 4 + dsz m ps ≤ a →
          allocAt m ps (round4_spec ns) a = m a :=
        fun a ha => allocAt_frame hpfit h4k h4d ha
      have hdszpos : dsz (allocAt m ps (round4_spec ns)) pos = dsz m pos := by
        apply dsz_congr
        intro i hi
        apply hfr
        rcases hdisj with hd1 | hd1
        · right; omega
        · left; omega
      have holdm1 : dm_get_size SZ (allocAt m ps (round4_spec ns)) dp = dsz m pos := by
        rw [dm_get_size, if_neg hdpz, hdp]
        have he : pos + 4 - 4 = pos := by omega
        rw [he, hdszpos]
      have hre := dm_realloc_copy halloc (by rw [holdm1]; omega)
      rw [hre] at hq ⊢
      have hq2 : ps + 4 = q := by simpa using hq
      rw [holdm1] at hq ⊢
      have hdpsub : dp - 4 = pos := by omega
      have hfree_eq :
          dm_free SZ (memcpy (allocAt m ps (round4_spec ns)) (ps + 4) dp
              (min ns (dsz m pos))) (some dp) =
            hdrSet (memcpy (allocAt m ps (round4_spec ns)) (ps + 4) dp
                (min ns (dsz m pos))) pos
              ⟨false, dsz (memcpy (allocAt m ps (round4_spec ns)) (ps + 4) dp
                (min ns (dsz m pos))) pos⟩ := by
        rw [dm_free, if_neg hdpz, hdpsub]
      refine ⟨?_, ?_, hA1, hA2⟩
      · intro i hi
        subst hq2
        simp only
        rw [hfree_eq]
        rw [hdrSet_frame _ _ (by rcases hdisj with hd1 | hd1 <;> omega)]
        rw [memcpy_in ⟨by omega, by omega⟩]
        have he2 : dp + (ps + 4 + i - (ps + 4)) = dp + i := by omega
        rw [he2]
        apply hfr
        rcases hdisj with hd1 | hd1
        · right; omega
        · left; omega
      · simp only
        rw [hfree_eq, hdrGet_hdrSet]

/-- A 32-byte arena: used 8-byte block at 0, free 16-byte block at 12. -/
def mW7 : Mem := hdrSet (hdrSet work_mem0 0 ⟨true, 8⟩) 12 ⟨false, 16⟩

/-- Witness for C7: reallocating the used 8-byte block at 0 of mW7 to 16
bytes moves it to payload 16 and preserves the first 8 bytes. -/
theorem C7_content_witness :
    (∀ i, i < min 16 (dsz mW7 0) →
      (dm_realloc 32 mW7 (some 4) 16).2 (16 + i) = mW7 (4 + i)) ∧
    (hdrGet (dm_realloc 32 mW7 (some 4) 16).2 0).used = false ∧
    dm_realloc 32 mW7 none 16 = dm_alloc 32 mW7 16 ∧
    dm_realloc 32 mW7 (some (zero_mem 32)) 16 = dm_alloc 32 mW7 16 := by
  have h1 : ent_get_next 32 mW7 (some 0) = some 12 := by decide
  have h2 : ent_get_next 32 mW7 (some 12) = none := by decide
  have hch : chain 32 mW7 = [0, 12] := by
    rw [chain, chainFrom_some h1, chainFrom_none h2]
  have hal : ∀ r ∈ chain 32 mW7, dsz mW7 r % 4 = 0 := by
    rw [hch]
    decide
  have hmem : (0 : Nat) ∈ chain 32 mW7 := by
    rw [hch]
    decide
  have halloc : dm_alloc 32 mW7 16 = (some (12 + 4), allocAt mW7 12 16) := by
    rw [dm_alloc_pos _ _ (by decide)]
    have hr : round4 16 = 16 := by decide
    rw [hr]
    rw [dm_alloc_scan_miss_some (by decide)
      (show ent_get_next 32 mW7 (some 0) = some 12 from h1)]
    exact dm_alloc_scan_hit (by decide) (by decide)
  have hq : (dm_realloc 32 mW7 (some 4) 16).1 = some 16 := by
    rw [dm_realloc_copy halloc (by decide)]
  exact C7_content 32 mW7 0 4 16 16 (by decide) hal hmem rfl (by decide) (by decide)
    (by decide) hq (by decide)

/-- A 36-byte arena: free 8-byte block at 0, used 12-byte block at 12 whose
payload bytes are all 7, free 4-byte block at 28. -/
def mC7 : Mem :=
  hdrSet (hdrSet (hdrSet (fun a => if 16 ≤ a ∧ a < 28 then 7 else 0) 0 ⟨false, 8⟩)
    12 ⟨true, 12⟩) 28 ⟨false, 4⟩

/-- Claim C7 counterexample: reallocating the valid used 12-byte block at
payload 16 of mC7 with new_size 4294967295 wraps the uint32 round-up to 0,
dm_alloc hands out a zero-size block at payload 4, and the 12-byte copy
overruns it, sweeping over the old block's header; after dm_free rewrites that
header, byte 8 of the new payload is 6 while the old payload held 7 there,
although the call returned the non-null non-sentinel pointer 4 and
8 < min(old_size, new_size). -/
theorem C7_counterexample :
    12 ∈ chain 36 mC7 ∧ (hdrGet mC7 12).used = true ∧ dsz mC7 12 = 12 ∧
    (dm_realloc 36 mC7 (some 16) 4294967295).1 = some 4 ∧
    (4 : Nat) ≠ zero_mem 36 ∧
    8 < min 4294967295 (dsz mC7 12) ∧
    (dm_realloc 36 mC7 (some 16) 4294967295).2 (4 + 8) ≠ mC7 (16 + 8) := by
  have h1 : ent_get_next 36 mC7 (some 0) = some 12 := by decide
  have h2 : ent_get_next 36 mC7 (some 12) = some 28 := by decide
  have h3 : ent_get_next 36 mC7 (some 28) = none := by decide
  have hch : chain 36 mC7 = [0, 12, 28] := by
    rw [chain, chainFrom_some h1, chainFrom_some h2, chainFrom_none h3]
  have halloc : dm_alloc 36 mC7 4294967295 = (some (0 + 4), allocAt mC7 0 0) := by
    rw [dm_alloc_pos _ _ (by decide)]
    have hr : round4 4294967295 = 0 := by decide
    rw [hr]
    exact dm_alloc_scan_hit (by decide) (by decide)
  have hre := dm_realloc_copy halloc
    (show dm_get_size 36 (allocAt mC7 0 0) 16 ≠ 0 by decide)
  refine ⟨?_, by decide, by decide, ?_, by decide, by decide, ?_⟩
  · rw [hch]
    decide
  · rw [hre]
  · rw [hre]
    decide

/- ### The tiling invariant (claim C3) -/

/-- The partition property of claim C3, from a given position: following
successive position + 4 + d_size steps, every block's header+payload span
stays inside the arena and the walk lands exactly on the arena end, so the
spans tile [pos, SZ) with no gaps and no overlaps. -/
def tilesFrom (SZ : Nat) (m : Mem) (pos : Nat) : Prop :=
  if _hpos : pos = SZ then True
  else if _h : pos + 4 + dsz m pos ≤ SZ then tilesFrom SZ m (pos + 4 + dsz m pos)
  else False
termination_by SZ - pos
decreasing_by omega

/-- The inductive invariant behind C3, from a given position: the walk tiles
[pos, SZ), every block size is a multiple of 4, and all payload bytes are
zero (the arena starts zeroed, DM_AUTO_ZERO is off and no operation of the
claim writes caller data, so every non-header byte stays zero). -/
def invFrom (SZ : Nat) (m : Mem) (pos : Nat) : Prop :=
  if _hpos : pos = SZ then True
  else if _h : pos + 4 + dsz m pos ≤ SZ then
    dsz m pos % 4 = 0 ∧ (∀ i, i < dsz m pos → m (pos + 4 + i) = 0) ∧
    invFrom SZ m (pos + 4 + dsz m pos)
  else False
termination_by SZ - pos
decreasing_by omega

theorem tilesFrom_base (SZ : Nat) (m : Mem) : tilesFrom SZ m SZ := by
  rw [tilesFrom]
  simp

theorem invFrom_base (SZ : Nat) (m : Mem) : invFrom SZ m SZ := by
  rw [invFrom]
  simp

theorem invFrom_unfold {SZ : Nat} {m : Mem} {pos : Nat}
    (h : invFrom SZ m pos) (hne : pos ≠ SZ) :
    pos + 4 + dsz m pos ≤ SZ ∧ dsz m pos % 4 = 0 ∧
    (∀ i, i < dsz m pos → m (pos + 4 + i) = 0) ∧
    invFrom SZ m (pos + 4 + dsz m pos) := by
  rw [invFrom, dif_neg hne] at h
  by_cases hle : pos + 4 + dsz m pos ≤ SZ
  · rw [dif_pos hle] at h
    exact ⟨hle, h⟩
  · rw [dif_neg hle] at h
    cases h

theorem invFrom_build {SZ : Nat} {m : Mem} {pos : Nat} (hne : pos ≠ SZ)
    (hle : pos + 4 + dsz m pos ≤ SZ) (h4 : dsz m pos % 4 = 0)
    (hz : ∀ i, i < dsz m pos → m (pos + 4 + i) = 0)
    (htail : invFrom SZ m (pos + 4 + dsz m pos)) : invFrom SZ m pos := by
  rw [invFrom, dif_neg hne, dif_pos hle]
  exact ⟨h4, hz, htail⟩

/-- The invariant implies the claim's partition property. -/
theorem invFrom_tilesFrom {SZ : Nat} {m : Mem} (pos : Nat) (h : invFrom SZ m pos) :
    tilesFrom SZ m pos := by
  by_cases hne : pos = SZ
  · rw [hne]
    exact tilesFrom_base SZ m
  · obtain ⟨hle, h4, hz, htail⟩ := invFrom_unfold h hne
    rw [tilesFrom, dif_neg hne, dif_pos hle]
    exact invFrom_tilesFrom _ htail
termination_by SZ - pos
decreasing_by
  have : pos < SZ := by omega
  omega

/-- invFrom only reads bytes at or above its start position. -/
theorem invFrom_congr_ge {SZ : Nat} {m m2 : Mem} (pos : Nat)
    (hagree : ∀ a, pos ≤ a → m2 a = m a) (h : invFrom SZ m pos) : invFrom SZ m2 pos := by
  by_cases hne : pos = SZ
  · rw [hne]
    exact invFrom_base SZ m2
  · obtain ⟨hle, h4, hz, htail⟩ := invFrom_unfold h hne
    have hds : dsz m2 pos = dsz m pos := by
      apply dsz_congr
      intro i hi
      exact hagree (pos + i) (by omega)
    apply invFrom_build hne (by omega) (by omega)
    · intro i hi
      rw [hds] at hi
      rw [hagree (pos + 4 + i) (by omega)]
      exact hz i hi
    · rw [hds]
      apply invFrom_congr_ge (pos + 4 + dsz m pos) (fun a ha => hagree a (by omega)) htail
termination_by SZ - pos
decreasing_by
  have : pos < SZ := by omega
  omega

/-- dm_init on the zeroed work memory establishes the invariant. -/
theorem invFrom_init {SZ : Nat} (hSZ : 8 ≤ SZ) (hSZ4 : SZ % 4 = 0)
    (hSZ31 : SZ ≤ 2147483648) : invFrom SZ (dm_init SZ work_mem0) 0 := by
  have hval : (4294967296 + SZ - 4) % 4294967296 = SZ - 4 := by omega
  have hget : hdrGet (dm_init SZ work_mem0) 0 = ⟨false, SZ - 4⟩ := by
    unfold dm_init
    rw [hval]
    exact hdrGet_hdrSet_of_lt _ _ _ (show SZ - 4 < 2147483648 by omega)
  have hds : dsz (dm_init SZ work_mem0) 0 = SZ - 4 := by
    unfold dsz
    rw [hget]
  apply invFrom_build (by omega) (by omega) (by omega)
  · intro i hi
    rw [hds] at hi
    unfold dm_init
    rw [hdrSet_frame _ _ (by omega)]
    rfl
  · rw [hds]
    have he : 0 + 4 + (SZ - 4) = SZ := by omega
    rw [he]
    exact invFrom_base _ _

/-- The invariant holds from every chain position. -/
theorem invFrom_chain_mem {SZ : Nat} {m : Mem} (pos p : Nat)
    (h : invFrom SZ m pos) (hp : p ∈ chainFrom SZ m pos) : invFrom SZ m p := by
  rcases chainFrom_mem_cases hp with h1 | ⟨nxt, hn, h1⟩
  · rw [h1]
    exact h
  · obtain ⟨hnn, hlt⟩ := ent_get_next_some hn
    obtain ⟨hle, h4, hz, htail⟩ := invFrom_unfold h (by omega)
    subst hnn
    exact invFrom_chain_mem _ _ htail h1
termination_by SZ - pos
decreasing_by omega

/-- Every chain position of an arena satisfying the invariant is aligned. -/
theorem invFrom_chain_aligned {SZ : Nat} {m : Mem} (pos p : Nat)
    (h : invFrom SZ m pos) (h4 : pos % 4 = 0) (hp : p ∈ chainFrom SZ m pos) :
    p % 4 = 0 := by
  rcases chainFrom_mem_cases hp with h1 | ⟨nxt, hn, h1⟩
  · omega
  · obtain ⟨hnn, hlt⟩ := ent_get_next_some hn
    obtain ⟨hle, hd4, hz, htail⟩ := invFrom_unfold h (by omega)
    subst hnn
    exact invFrom_chain_aligned _ _ htail (by omega) h1
termination_by SZ - pos
decreasing_by omega

/-- Clearing the used flag of a header at any aligned position preserves the
invariant: at a block header the d_size bits are rewritten unchanged, and
inside a zero payload the write stores the same zeros back. -/
theorem invFrom_free_write {SZ : Nat} {m : Mem} {p : Nat} (h4p : p % 4 = 0) :
    ∀ pos, pos % 4 = 0 → invFrom SZ m pos →
      invFrom SZ (hdrSet m p ⟨false, dsz m p⟩) pos := by
  intro pos h4pos h
  by_cases hne : pos = SZ
  · rw [hne]
    exact invFrom_base _ _
  · obtain ⟨hle, h4, hz, htail⟩ := invFrom_unfold h hne
    by_cases hc1 : p < pos
    · -- write strictly below pos
      apply invFrom_congr_ge pos _ h
      intro a ha
      exact hdrSet_frame _ _ (by omega)
    · by_cases hc2 : p = pos
      · -- rewrite of this block's own header, flag only
        subst hc2
        have hd31 := dsz_lt m p
        have hds : dsz (hdrSet m p ⟨false, dsz m p⟩) p = dsz m p := by
          rw [dsz_hdrSet_self]
          exact Nat.mod_eq_of_lt hd31
        apply invFrom_build hne (by omega) (by omega)
        · intro i hi
          rw [hds] at hi
          rw [hdrSet_frame _ _ (by omega)]
          exact hz i hi
        · rw [hds]
          apply invFrom_congr_ge _ _ htail
          intro a ha
          exact hdrSet_frame _ _ (by omega)
      · by_cases hc3 : p < pos + 4 + dsz m pos
        · -- write inside this block's zero payload: it stores zeros back
          have hp4 : pos + 4 ≤ p := by omega
          have hpe : p + 4 ≤ pos + 4 + dsz m pos := by omega
          have hzero : ∀ i, i < 4 → m (p + i) = 0 := by
            intro i hi
            have he : p + i = pos + 4 + (p - pos - 4 + i) := by omega
            rw [he]
            exact hz _ (by omega)
          rw [hdrSet_false_zeros hzero]
          exact h
        · -- write beyond this block
          have hds : dsz (hdrSet m p ⟨false, dsz m p⟩) pos = dsz m pos :=
            dsz_hdrSet_ne _ _ (by omega)
          apply invFrom_build hne (by omega) (by omega)
          · intro i hi
            rw [hds] at hi
            rw [hdrSet_frame _ _ (by omega)]
            exact hz i hi
          · rw [hds]
            exact invFrom_free_write h4p (pos + 4 + dsz m pos) (by omega) htail
termination_by pos => SZ - pos
decreasing_by
  have : pos < SZ := by omega
  omega

/-- Taking a block with allocAt re-establishes the invariant at that block:
fold and exact fit only rewrite the header word, and a split carves the zero
payload into an aligned used block and an aligned free block. -/
theorem invFrom_allocAt_self {SZ : Nat} {m : Mem} {ps k : Nat}
    (hfit : k ≤ dsz m ps) (h4k : k % 4 = 0)
    (hps : invFrom SZ m ps) (hpsne : ps ≠ SZ) :
    invFrom SZ (allocAt m ps k) ps := by
  obtain ⟨hle, h4d, hz, htail⟩ := invFrom_unfold hps hpsne
  have hd31 := dsz_lt m ps
  have hk31 : k < 2147483648 := by omega
  by_cases h1 : dsz m ps = k + 4
  · -- fold
    rw [allocAt_fold hk31 h1]
    have hds : dsz (hdrSet m ps ⟨true, k + 4⟩) ps = k + 4 := by
      rw [dsz_hdrSet_self]
      exact Nat.mod_eq_of_lt (show k + 4 < 2147483648 by omega)
    apply invFrom_build hpsne (by omega) (by omega)
    · intro i hi
      rw [hds] at hi
      rw [hdrSet_frame _ _ (by omega)]
      exact hz i (by omega)
    · rw [hds]
      have he : ps + 4 + (k + 4) = ps + 4 + dsz m ps := by omega
      rw [he]
      apply invFrom_congr_ge _ _ htail
      intro a ha
      exact hdrSet_frame _ _ (by omega)
  · by_cases h2 : dsz m ps = k
    · -- exact fit
      rw [allocAt_exact hk31 h2]
      have hds : dsz (hdrSet m ps ⟨true, k⟩) ps = k := by
        rw [dsz_hdrSet_self]
        exact Nat.mod_eq_of_lt (show k < 2147483648 by omega)
      apply invFrom_build hpsne (by omega) (by omega)
      · intro i hi
        rw [hds] at hi
        rw [hdrSet_frame _ _ (by omega)]
        exact hz i (by omega)
      · rw [hds]
        have he : ps + 4 + k = ps + 4 + dsz m ps := by omega
        rw [he]
        apply invFrom_congr_ge _ _ htail
        intro a ha
        exact hdrSet_frame _ _ (by omega)
    · -- split
      have hd8 : k + 8 ≤ dsz m ps := by omega
      have hhdr := @allocAt_hdr m ps k hfit
      rw [if_neg h1] at hhdr
      have hnew := allocAt_newhdr hfit h4k h4d h2 h1
      have hsplit := @allocAt_split m ps k hk31 h2 h1
      have hframe : ∀ a, (ps + 4 ≤ a ∧ a < ps + 4 + k) ∨ ps + 8 + k ≤ a →
          allocAt m ps k a = m a := by
        intro a ha
        rcases ha with ha | ha
        · exact allocAt_frame_payload hfit ha
        · rw [hsplit]
          rw [hdrSet_frame _ _ (by omega)]
          exact hdrSet_frame _ _ (by omega)
      have hds : dsz (allocAt m ps k) ps = k := by
        unfold dsz
        rw [hhdr]
      have hdsq : dsz (allocAt m ps k) (ps + 4 + k) = dsz m ps - k - 4 := by
        unfold dsz
        rw [hnew]
        rfl
      apply invFrom_build hpsne (by omega) (by omega)
      · intro i hi
        rw [hds] at hi
        rw [hframe _ (Or.inl ⟨by omega, by omega⟩)]
        exact hz i (by omega)
      · rw [hds]
        apply invFrom_build (by omega) (by omega) (by omega)
        · intro i hi
          rw [hdsq] at hi
          have he : ps + 4 + k + 4 + i = ps + 4 + (k + 4 + i) := by omega
          rw [he, hframe _ (Or.inr (by omega))]
          exact hz _ (by omega)
        · rw [hdsq]
          have he : ps + 4 + k + 4 + (dsz m ps - k - 4) = ps + 4 + dsz m ps := by omega
          rw [he]
          apply invFrom_congr_ge _ _ htail
          intro a ha
          exact hframe _ (Or.inr (by omega))

/-- allocAt at a chain block preserves the invariant along the whole walk. -/
theorem invFrom_allocAt {SZ : Nat} {m : Mem} {ps k : Nat}
    (hfit : k ≤ dsz m ps) (h4k : k % 4 = 0) (h4d : dsz m ps % 4 = 0)
    (hpsne : ps ≠ SZ) :
    ∀ pos, invFrom SZ m pos → ps ∈ chainFrom SZ m pos →
      invFrom SZ (allocAt m ps k) pos := by
  intro pos h hp
  rcases chainFrom_mem_cases hp with h1 | ⟨nxt, hn, h1⟩
  · rw [← h1] at h ⊢
    exact invFrom_allocAt_self hfit h4k h (h1 ▸ hpsne)
  · obtain ⟨hnn, hlt⟩ := ent_get_next_some hn
    obtain ⟨hle, hd4, hz, htail⟩ := invFrom_unfold h (by omega)
    have hge : pos + 4 + dsz m pos ≤ ps := by
      subst hnn
      exact chainFrom_ge h1
    have hframe : ∀ a, a < ps → allocAt m ps k a = m a := by
      intro a ha
      exact allocAt_frame hfit h4k h4d (Or.inl ha)
    have hds : dsz (allocAt m ps k) pos = dsz m pos := by
      apply dsz_congr
      intro i hi
      exact hframe _ (by omega)
    apply invFrom_build (by omega) (by omega) (by omega)
    · intro i hi
      rw [hds] at hi
      rw [hframe _ (by omega)]
      exact hz i hi
    · rw [hds]
      subst hnn
      exact invFrom_allocAt hfit h4k h4d hpsne _ htail h1
termination_by pos => SZ - pos
decreasing_by omega

/-- Overwriting an aligned region with zeros preserves the invariant: covered
headers become zero-size blocks the walk steps through four bytes at a time,
and the zero run rejoins the old walk at the end of the last covered block
(whose remaining payload was zero already).  This absorbs dm_realloc's
oversized memcpy in the wrapped-size case.  The second disjunct of the
hypothesis tracks a walk restart inside such a zero run. -/
theorem invFrom_shatter {SZ : Nat} {m m2 : Mem} {q n : Nat}
    (h4SZ : SZ % 4 = 0) (h4q : q % 4 = 0) (h4n : n % 4 = 0)
    (hout : ∀ a, a < q ∨ q + n ≤ a → m2 a = m a)
    (hin : ∀ a, q ≤ a → a < q + n → m2 a = 0) :
    ∀ pos, pos % 4 = 0 → pos ≤ SZ →
      (invFrom SZ m pos ∨
        (∃ e, pos < e ∧ e ≤ SZ ∧ e % 4 = 0 ∧ invFrom SZ m e ∧
          (∀ a, pos ≤ a → a < e → m a = 0))) →
      invFrom SZ m2 pos := by
  intro pos h4pos hposSZ hcase
  have hkey : ∀ a, m2 a = m a ∨ m2 a = 0 := by
    intro a
    by_cases ha : a < q ∨ q + n ≤ a
    · left
      exact hout a ha
    · right
      exact hin a (by omega) (by omega)
  by_cases hne : pos = SZ
  · rw [hne]
    exact invFrom_base _ _
  rcases hcase with hinv | ⟨e, hpe, heSZ, h4e, hinve, hzrun⟩
  · obtain ⟨hle, h4d, hz, htail⟩ := invFrom_unfold hinv hne
    by_cases hdisj : pos + 4 ≤ q ∨ q + n ≤ pos
    · -- this header is untouched
      have hds : dsz m2 pos = dsz m pos := by
        apply dsz_congr
        intro i hi
        exact hout _ (by omega)
      apply invFrom_build hne (by omega) (by omega)
      · intro i hi
        rw [hds] at hi
        rcases hkey (pos + 4 + i) with hk | hk
        · rw [hk]
          exact hz i hi
        · exact hk
      · rw [hds]
        exact invFrom_shatter h4SZ h4q h4n hout hin _ (by omega) (by omega)
          (Or.inl htail)
    · -- this header is inside the zeroed region
      have hcont : q ≤ pos ∧ pos + 4 ≤ q + n := by omega
      have hds : dsz m2 pos = 0 := by
        unfold dsz
        rw [hdrGet_zeros (fun i hi => hin (pos + i) (by omega) (by omega))]
      apply invFrom_build hne (by omega) (by omega)
      · intro i hi
        rw [hds] at hi
        omega
      · rw [hds]
        by_cases hz0 : dsz m pos = 0
        · apply invFrom_shatter h4SZ h4q h4n hout hin _ (by omega) (by omega)
          left
          have he : pos + 4 + 0 = pos + 4 + dsz m pos := by omega
          rw [he]
          exact htail
        · apply invFrom_shatter h4SZ h4q h4n hout hin _ (by omega) (by omega)
          right
          refine ⟨pos + 4 + dsz m pos, by omega, by omega, by omega, htail, ?_⟩
          intro a ha1 ha2
          have he : a = pos + 4 + (a - pos - 4) := by omega
          rw [he]
          exact hz _ (by omega)
  · -- inside a zero run ending at the old walk position e
    have hp4e : pos + 4 ≤ e := by omega
    have hds : dsz m2 pos = 0 := by
      unfold dsz
      rw [hdrGet_zeros ?_]
      intro i hi
      rcases hkey (pos + i) with hk | hk
      · rw [hk]
        exact hzrun _ (by omega) (by omega)
      · exact hk
    apply invFrom_build hne (by omega) (by omega)
    · intro i hi
      rw [hds] at hi
      omega
    · rw [hds]
      by_cases hpe4 : pos + 4 = e
      · apply invFrom_shatter h4SZ h4q h4n hout hin _ (by omega) (by omega)
        left
        rw [show pos + 4 + 0 = e by omega]
        exact hinve
      · apply invFrom_shatter h4SZ h4q h4n hout hin _ (by omega) (by omega)
        right
        refine ⟨e, by omega, heSZ, h4e, hinve, ?_⟩
        intro a ha1 ha2
        exact hzrun _ (by omega) ha2
termination_by pos => SZ - pos
decreasing_by
  all_goals
    have : pos < SZ := by omega
    omega

/-- A valid handle of the current state: NULL, the zero-size sentinel, or the
payload address of a block of the chain. -/
def ValidHandle (SZ : Nat) (m : Mem) (p : Option Nat) : Prop :=
  p = none ∨ p = some (zero_mem SZ) ∨ ∃ pos, pos ∈ chain SZ m ∧ p = some (pos + 4)

theorem chain_pos_ne {SZ : Nat} {m : Mem} {p : Nat} (hSZ : 8 ≤ SZ)
    (hp : p ∈ chain SZ m) : p ≠ SZ := by
  by_cases h0 : p = 0
  · omega
  · have := chainFrom_tail_lt hp h0
    omega

/-- dm_alloc preserves the invariant, for every uint32 request size (even the
sizes whose round-up wraps: they truncate an aligned free block to size 0 or
fold into size 4, both of which keep the tiling). -/
theorem invFrom_dm_alloc (SZ : Nat) (m : Mem) (s : Nat) (hSZ : 8 ≤ SZ)
    (hinv : invFrom SZ m 0) : invFrom SZ (dm_alloc SZ m s).2 0 := by
  by_cases hs : s = 0
  · rw [hs, dm_alloc_zero]
    exact hinv
  · rw [dm_alloc_pos SZ m hs, scan_spec]
    cases hf : (chainFrom SZ m 0).find? (fits m (round4 s)) with
    | none => exact hinv
    | some ps =>
      have hmem := List.mem_of_find?_eq_some hf
      have hfit := fits_iff.mp (List.find?_some hf)
      have hpsne : ps ≠ SZ := chain_pos_ne hSZ hmem
      have hinvps := invFrom_chain_mem 0 ps hinv hmem
      obtain ⟨hle, h4d, hz, htail⟩ := invFrom_unfold hinvps hpsne
      exact invFrom_allocAt hfit.2 (round4_mod4 s) h4d hpsne 0 hinv hmem

/-- dm_free on a valid handle preserves the invariant. -/
theorem invFrom_dm_free (SZ : Nat) (m : Mem) (p : Option Nat) (hSZ : 8 ≤ SZ)
    (hv : ValidHandle SZ m p) (hinv : invFrom SZ m 0) :
    invFrom SZ (dm_free SZ m p) 0 := by
  rcases hv with hv | hv | ⟨pos, hmem, hv⟩
  · rw [hv, dm_free]
    exact hinv
  · rw [hv, dm_free, if_pos rfl]
    exact hinv
  · rw [hv, dm_free]
    by_cases hz : pos + 4 = zero_mem SZ
    · rw [if_pos hz]
      exact hinv
    · rw [if_neg hz]
      have he : pos + 4 - 4 = pos := by omega
      rw [he]
      have h4p : pos % 4 = 0 := invFrom_chain_aligned 0 pos hinv (by omega) hmem
      exact invFrom_free_write h4p 0 (by omega) hinv

theorem memcpy_self (m : Mem) (d n : Nat) : memcpy m d d n = m := by
  funext a
  unfold memcpy
  split
  next h => rw [show d + (a - d) = a by omega]
  next h => rfl

/-- dm_realloc on a valid handle preserves the invariant for every uint32
new_size.  In the wrapped-size cases the oversized copy only spreads zeros
over the arena (all payloads are zero), which the shatter lemma absorbs. -/
theorem invFrom_dm_realloc (SZ : Nat) (m : Mem) (p : Option Nat) (ns : Nat)
    (hSZ : 8 ≤ SZ) (h4SZ : SZ % 4 = 0) (hns : ns < 4294967296)
    (hv : ValidHandle SZ m p) (hinv : invFrom SZ m 0) :
    invFrom SZ (dm_realloc SZ m p ns).2 0 := by
  have hz := zero_mem_def SZ
  by_cases hns0 : ns = 0
  · subst hns0
    have halloc := dm_alloc_zero SZ m
    rcases hv with hvp | hvp | ⟨pos, hmem, hvp⟩
    · rw [hvp, dm_realloc_null halloc]
      exact hinv
    · rw [hvp]
      have h0 : dm_get_size SZ m (zero_mem SZ) = 0 := by rw [dm_get_size, if_pos rfl]
      rw [dm_realloc_nocopy halloc h0]
      exact hinv
    · rw [hvp]
      by_cases hgs0 : dm_get_size SZ m (pos + 4) = 0
      · rw [dm_realloc_nocopy halloc hgs0]
        exact hinv
      · rw [dm_realloc_copy halloc hgs0]
        have hmin : min 0 (dm_get_size SZ m (pos + 4)) = 0 := by omega
        rw [hmin, memcpy_zero]
        exact invFrom_dm_free SZ m (some (pos + 4)) hSZ
          (Or.inr (Or.inr ⟨pos, hmem, rfl⟩)) hinv
  · cases hf : (chainFrom SZ m 0).find? (fits m (round4 ns)) with
    | none =>
      have halloc : dm_alloc SZ m ns = (none, m) := by
        rw [dm_alloc_pos SZ m hns0, scan_spec, hf]
      rw [dm_realloc_fail halloc]
      exact hinv
    | some ps =>
      have halloc : dm_alloc SZ m ns = (some (ps + 4), allocAt m ps (round4 ns)) := by
        rw [dm_alloc_pos SZ m hns0, scan_spec, hf]
      have hmem := List.mem_of_find?_eq_some hf
      have hfit := (fits_iff.mp (List.find?_some hf)).2
      have hfree := (fits_iff.mp (List.find?_some hf)).1
      have hpsne : ps ≠ SZ := chain_pos_ne hSZ hmem
      have h4ps : ps % 4 = 0 := invFrom_chain_aligned 0 ps hinv (by omega) hmem
      have hinvps := invFrom_chain_mem 0 ps hinv hmem
      obtain ⟨hleps, h4dps, hzps, _⟩ := invFrom_unfold hinvps hpsne
      have h4k : round4 ns % 4 = 0 := round4_mod4 ns
      have hinv1 : invFrom SZ (allocAt m ps (round4 ns)) 0 :=
        invFrom_allocAt hfit h4k h4dps hpsne 0 hinv hmem
      have hinv1ps : invFrom SZ (allocAt m ps (round4 ns)) ps :=
        invFrom_allocAt_self hfit h4k hinvps hpsne
      have hk1 : dsz (allocAt m ps (round4 ns)) ps =
          if dsz m ps = round4 ns + 4 then round4 ns + 4 else round4 ns := by
        unfold dsz
        rw [allocAt_hdr hfit]
        rfl
      rcases hv with hvp | hvp | ⟨pos, hmempos, hvp⟩
      · rw [hvp, dm_realloc_null halloc]
        exact hinv1
      · rw [hvp]
        have h0 : dm_get_size SZ (allocAt m ps (round4 ns)) (zero_mem SZ) = 0 := by
          rw [dm_get_size, if_pos rfl]
        rw [dm_realloc_nocopy halloc h0]
        exact hinv1
      · rw [hvp]
        by_cases hgs0 : dm_get_size SZ (allocAt m ps (round4 ns)) (pos + 4) = 0
        · rw [dm_realloc_nocopy halloc hgs0]
          exact hinv1
        · rw [dm_realloc_copy halloc hgs0]
          have hposne : pos ≠ SZ := chain_pos_ne hSZ hmempos
          have h4pos : pos % 4 = 0 := invFrom_chain_aligned 0 pos hinv (by omega) hmempos
          have hinvpos := invFrom_chain_mem 0 pos hinv hmempos
          obtain ⟨hlepos, h4dpos, hzpos, _⟩ := invFrom_unfold hinvpos hposne
          have hdpz : pos + 4 ≠ zero_mem SZ := by
            by_cases h0 : pos = 0
            · omega
            · have := chainFrom_tail_lt hmempos h0
              omega
          have hold_eq : dm_get_size SZ (allocAt m ps (round4 ns)) (pos + 4) =
              dsz (allocAt m ps (round4 ns)) pos := by
            rw [dm_get_size, if_neg hdpz]
            rw [show pos + 4 - 4 = pos by omega]
          have hinv2 : invFrom SZ
              (memcpy (allocAt m ps (round4 ns)) (ps + 4) (pos + 4)
                (min ns (dm_get_size SZ (allocAt m ps (round4 ns)) (pos + 4)))) 0 := by
            by_cases hps_eq : pos = ps
            · -- realloc of the very block the allocation just took: the copy
              -- is the identity
              subst hps_eq
              rw [hold_eq]
              have hn_le : min ns (dsz (allocAt m pos (round4 ns)) pos) ≤
                  dsz (allocAt m pos (round4 ns)) pos := Nat.min_le_right _ _
              rw [memcpy_self]
              exact hinv1
            · have hdisj := chainFrom_disjoint hmempos hmem hps_eq
              have hframe : ∀ a, a < ps ∨ ps + 4 + dsz m ps ≤ a →
                  allocAt m ps (round4 ns) a = m a :=
                fun a ha => allocAt_frame hfit h4k h4dps ha
              have hds1pos : dsz (allocAt m ps (round4 ns)) pos = dsz m pos := by
                apply dsz_congr
                intro i hi
                apply hframe
                rcases hdisj with hd | hd
                · left; omega
                · right; omega
              have hpz1 : ∀ i, i < dsz m pos →
                  allocAt m ps (round4 ns) (pos + 4 + i) = 0 := by
                intro i hi
                rw [hframe _ ?_]
                · exact hzpos i hi
                · rcases hdisj with hd | hd
                  · left; omega
                  · right; omega
              rw [hold_eq, hds1pos]
              by_cases hcase : min ns (dsz m pos) ≤ dsz (allocAt m ps (round4 ns)) ps
              · -- the copy stays inside the new block's zero payload and
                -- copies zeros over zeros
                obtain ⟨hle1, h4k1, hz1, _⟩ := invFrom_unfold hinv1ps hpsne
                have hcopy : memcpy (allocAt m ps (round4 ns)) (ps + 4) (pos + 4)
                    (min ns (dsz m pos)) = allocAt m ps (round4 ns) := by
                  funext a
                  unfold memcpy
                  split
                  next hr =>
                    have h1 : allocAt m ps (round4 ns) (pos + 4 + (a - (ps + 4))) = 0 := by
                      rw [show pos + 4 + (a - (ps + 4)) = pos + 4 + (a - (ps + 4)) from rfl]
                      exact hpz1 _ (by omega)
                    have h2 : allocAt m ps (round4 ns) a = 0 := by
                      rw [show a = ps + 4 + (a - (ps + 4)) by omega]
                      exact hz1 _ (by omega)
                    rw [h1, h2]
                  next hr => rfl
                rw [hcopy]
                exact hinv1
              · -- wrapped new_size: the copy overruns the zero-size block,
                -- sweeping zeros over the region after it
                have hk'ge : round4 ns ≤ dsz (allocAt m ps (round4 ns)) ps := by
                  rw [hk1]
                  split <;> omega
                have hwrap : 4294967293 ≤ ns := by
                  by_cases hle : ns ≤ 4294967292
                  · exfalso
                    have h1 : ns ≤ round4 ns := by
                      rw [round4_eq_spec hle]
                      exact round4_spec_ge ns
                    omega
                  · omega
                have hdlt := dsz_lt m pos
                have hmin : min ns (dsz m pos) = dsz m pos := by omega
                rw [hmin]
                apply invFrom_shatter h4SZ (by omega) (by omega)
                  (fun a ha => memcpy_out ha) ?_ 0 (by omega) (by omega) (Or.inl hinv1)
                intro a ha1 ha2
                rw [memcpy_in ⟨ha1, ha2⟩]
                exact hpz1 _ (by omega)
          rw [dm_free, if_neg hdpz]
          rw [show pos + 4 - 4 = pos by omega]
          exact invFrom_free_write h4pos 0 (by omega) hinv2

/-- The arena states of claim C3: from the initialized arena, any sequence of
dm_alloc, dm_free, dm_realloc (handles valid for the current state, sizes
uint32 values), dm_monitor (which only fills a record; the arena argument is
untouched) and dm_defrag. -/
inductive Reachable (SZ : Nat) : Mem → Prop where
  | init : Reachable SZ (dm_init SZ work_mem0)
  | alloc {m : Mem} (s : Nat) (hs : s < 4294967296) (h : Reachable SZ m) :
      Reachable SZ (dm_alloc SZ m s).2
  | free {m : Mem} (p : Option Nat) (hp : ValidHandle SZ m p) (h : Reachable SZ m) :
      Reachable SZ (dm_free SZ m p)
  | realloc {m : Mem} (p : Option Nat) (ns : Nat) (hns : ns < 4294967296)
      (hp : ValidHandle SZ m p) (h : Reachable SZ m) :
      Reachable SZ (dm_realloc SZ m p ns).2
  | monitor {m : Mem} (h : Reachable SZ m) : Reachable SZ m
  | defrag {m : Mem} (h : Reachable SZ m) : Reachable SZ (dm_defrag m)

/-- Claim C3: starting from the initialized arena (one free block of size
SZ - 4), after every sequence of dm_alloc, dm_free, dm_realloc, dm_monitor
and dm_defrag calls on valid handles, on a pool size that is a multiple of 4,
at least 8 and within the 31-bit d_size field, the blocks' header+payload
spans exactly partition the arena: the chain of headers reached by successive
position + 4 + d_size steps covers it with no gaps and no overlaps, and the
last block's payload ends exactly at the arena end. -/
theorem C3_tiling (SZ : Nat) (m : Mem) (hSZ : 8 ≤ SZ) (h4SZ : SZ % 4 = 0)
    (hSZ31 : SZ ≤ 2147483648) (h : Reachable SZ m) : tilesFrom SZ m 0 := by
  have hinv : invFrom SZ m 0 := by
    induction h with
    | init => exact invFrom_init hSZ h4SZ hSZ31
    | alloc s hs hr ih => exact invFrom_dm_alloc SZ _ s hSZ ih
    | free p hp hr ih => exact invFrom_dm_free SZ _ p hSZ hp ih
    | realloc p ns hns hp hr ih => exact invFrom_dm_realloc SZ _ p ns hSZ h4SZ hns hp ih
    | monitor hr ih => exact ih
    | defrag hr ih => exact ih
  exact invFrom_tilesFrom 0 hinv

/-- Witness for C3: a 16-byte arena after init, an allocation of 5 bytes and
a free of the returned pointer still tiles. -/
theorem C3_tiling_witness :
    tilesFrom 16 (dm_free 16 (dm_alloc 16 (dm_init 16 work_mem0) 5).2 (some 4)) 0 :=
  C3_tiling 16 _ (by decide) (by decide) (by decide)
    (Reachable.free (some 4)
      (Or.inr (Or.inr ⟨0, chainFrom_self 16 (dm_alloc 16 (dm_init 16 work_mem0) 5).2 0, rfl⟩))
      (Reachable.alloc 5 (by decide) Reachable.init))
